import Mathlib

/-!
# Verification of the Lexer repository (regex → prenex → AST → NFA → DFA → lexer)

Shallow embedding of the five Python modules `Parser.py`, `AST.py`, `NFA.py`,
`DFA.py` and `Lex.py`.  Python strings are modelled as `List Char` (named `Str`
below), machine integers as `Nat`, Python's `None` via `Option`, dictionaries
(which preserve insertion order) as association lists.

The file has two parts: first the definitions, translated from the source
modules, then the theorems settling the claims.
-/

set_option maxRecDepth 10000

namespace LexerProj

/-- Python strings are lists of characters. -/
abbrev Str := List Char

/-- The single-quote character (`'`), written via its code point. -/
def quoteChar : Char := Char.ofNat 39

/-- The backslash character, written via its code point. -/
def backslashChar : Char := Char.ofNat 92

/-- Decimal digit writer: `fuel` bounds the division chain and is always
supplied as at least `n + 1`, which the chain never exhausts. -/
def natReprAux : Nat → Nat → Str
  | 0, _ => []
  | fuel + 1, n =>
    if n < 10 then [Nat.digitChar n]
    else natReprAux fuel (n / 10) ++ [Nat.digitChar (n % 10)]

/-- Decimal representation of a natural number, as produced by Python's
`str` on a nonnegative `int` (no sign, no leading zeros). -/
def natRepr (n : Nat) : Str := natReprAux (n + 1) n

/-- Python's substring test `pat in hay` on strings. -/
def containsSub (hay pat : Str) : Bool :=
  pat.isPrefixOf hay ||
    match hay with
    | [] => false
    | _ :: t => containsSub t pat

/-- The scanning loop of Python's `str.replace(pat, rep)`: replace all
non-overlapping occurrences of `pat`, scanning left to right.  `fuel`
bounds the recursion and is always supplied as at least the length of the
scanned string, which the scan (for the source's nonempty patterns) never
exhausts. -/
def strReplaceAux (pat rep : Str) : Nat → Str → Str
  | 0, s => s
  | _ + 1, [] => []
  | fuel + 1, c :: rest =>
    if pat ≠ [] ∧ pat.isPrefixOf (c :: rest) then
      rep ++ strReplaceAux pat rep fuel ((c :: rest).drop pat.length)
    else
      c :: strReplaceAux pat rep fuel rest

/-- Python's `str.replace(pat, rep)`. -/
def strReplace (s pat rep : Str) : Str := strReplaceAux pat rep s.length s

/-- Insert a natural number into a sorted duplicate-free list, keeping it
sorted and duplicate-free (used to model Python's `sorted(set(...))` on
integer sets). -/
def insNat (x : Nat) : List Nat → List Nat
  | [] => [x]
  | y :: ys =>
    if x < y then x :: y :: ys
    else if x = y then y :: ys
    else y :: insNat x ys

/-- Python's `sorted(set(l))` for a list of integers: the sorted list of the
distinct elements of `l`. -/
def sortDedupNat (l : List Nat) : List Nat := l.foldr insNat []

/-- Lexicographic comparison of strings by code point, Python's `<` on `str`. -/
def strLt : Str → Str → Bool
  | [], [] => false
  | [], _ :: _ => true
  | _ :: _, [] => false
  | a :: as, b :: bs => if a = b then strLt as bs else decide (a < b)

/-- Insert a string into a sorted duplicate-free list of strings. -/
def insStr (x : Str) : List Str → List Str
  | [] => [x]
  | y :: ys =>
    if strLt x y then x :: y :: ys
    else if x = y then y :: ys
    else y :: insStr x ys

/-- Python's `sorted(set(l))` for a list of strings. -/
def sortDedupStr (l : List Str) : List Str := l.foldr insStr []

/-- `DFA.setToStr` (DFA.py lines 71-77): serialize a sorted set of state ids
as the underscore-joined string `"q0_q1_..._qn"`.  Groups are kept in
canonical sorted duplicate-free form throughout the embedding, so the
argument is already the sorted list Python's `sorted(states)` produces. -/
def setToStr : List Nat → Str
  | [] => []
  | [x] => natRepr x
  | x :: y :: rest => natRepr x ++ '_' :: setToStr (y :: rest)

/-! ## Parser.py — expression tokenizer and prenex compiler -/

/-- A regex token: a `Character` (carrying its `chr` string) or an `Operator`
(carrying its glyph), mirroring the `Character`/`Operator` classes used by
`Parser.py`. -/
inductive RTok
  | ch (s : Str)
  | op (c : Char)
deriving DecidableEq, Repr

namespace Parser

/-- Modelled from the spec: `Regex.py` (defining the `Operator` class and its
precedence ranks) is not under `src/`.  Per §4.1 of the spec, the postfix
repetition operators star, plus and maybe bind tightest and share one rank,
concatenation binds tighter than union, union is lowest, and grouping tokens
are "never compared by rank" (so brackets get the bottom rank, ensuring the
pop loops stop at them). -/
def priority : Char → Nat
  | '*' => 3
  | '+' => 3
  | '?' => 3
  | '.' => 2
  | '|' => 1
  | _ => 0

/-- The pairs of adjacent tokens between which `Parser.addConcatOp`
(Parser.py lines 17-71) inserts an explicit concatenation operator. -/
def needsConcat : RTok → RTok → Bool
  | RTok.ch _, RTok.ch _ => true
  | RTok.ch _, RTok.op '(' => true
  | RTok.op ')', RTok.ch _ => true
  | RTok.op ')', RTok.op '(' => true
  | RTok.op '*', RTok.ch _ => true
  | RTok.op '+', RTok.ch _ => true
  | RTok.op '?', RTok.ch _ => true
  | RTok.op '*', RTok.op '(' => true
  | RTok.op '+', RTok.op '(' => true
  | RTok.op '?', RTok.op '(' => true
  | _, _ => false

/-- The pairwise pass of `Parser.addConcatOp`: emit each token, inserting
`CONCAT` after it when `needsConcat` holds for the adjacent pair, and emit
the final token as is (the source appends `rlist[i + 1]` after the loop). -/
def addConcatGo : List RTok → List RTok
  | [] => []
  | [b] => [b]
  | a :: b :: rest =>
    (if needsConcat a b then [a, RTok.op '.'] else [a]) ++ addConcatGo (b :: rest)

/-- `Parser.addConcatOp` (Parser.py lines 17-71).  A single-token list is
returned unchanged (lines 28-29); the empty list cannot reach the pairwise
loop in the source (empty input is malformed per the spec) and is mapped to
itself. -/
def addConcatOp (rlist : List RTok) : List RTok :=
  match rlist with
  | [] => []
  | [t] => [t]
  | l => addConcatGo l

/-- The tokenizing loop of `Parser.preprocess` (Parser.py lines 86-132),
run after the `eps`→`ε` replacement.  A quote consumes three characters
(opening quote, the character, closing quote) and produces one `Character`
token, quoted whitespace keeping its quotes (lines 90-102); `[x-y]` expands
to a bracketed union chain over the code-point range (lines 119-129); the
operator glyphs map to `Operator` tokens; everything else is a literal.
A quote or `[` too close to the end of input makes the source raise
`IndexError`; those inputs are outside every claim and map to ending the
scan. -/
def classifyAux : Nat → Str → List RTok
  | 0, _ => []
  | fuel + 1, s =>
    match s with
    | [] => []
    | c :: rest =>
      if c = quoteChar then
        match rest with
        | [] => []
        | d :: rest2 =>
          (if d = '\n' ∨ d = '\t' ∨ d = '\r' ∨ d = ' '
           then RTok.ch [quoteChar, d, quoteChar]
           else RTok.ch [d]) :: classifyAux fuel (rest2.drop 1)
      else if c = '(' then RTok.op '(' :: classifyAux fuel rest
      else if c = ')' then RTok.op ')' :: classifyAux fuel rest
      else if c = '*' then RTok.op '*' :: classifyAux fuel rest
      else if c = '+' then RTok.op '+' :: classifyAux fuel rest
      else if c = '?' then RTok.op '?' :: classifyAux fuel rest
      else if c = '|' then RTok.op '|' :: classifyAux fuel rest
      else if c = '.' then RTok.op '.' :: classifyAux fuel rest
      else if c = '[' then
        match rest with
        | a :: _ :: b :: rest2 =>
          (RTok.op '(' ::
            ((List.range' a.toNat (b.toNat - a.toNat)).flatMap
              (fun j => [RTok.ch [Char.ofNat j], RTok.op '|']) ++
             [RTok.ch [b], RTok.op ')'])) ++ classifyAux fuel (rest2.drop 1)
        | _ => []
      else RTok.ch [c] :: classifyAux fuel rest

/-- The tokenizing loop, with `fuel` set to the input length, which the
scan never exhausts since every step consumes at least one character. -/
def classify (s : Str) : List RTok := classifyAux s.length s

/-- `Parser.preprocess` (Parser.py lines 74-138): replace `eps` with `ε`
(line 83), tokenize, then insert implicit concatenation operators. -/
def preprocess (regex : Str) : List RTok :=
  addConcatOp (classify (strReplace regex "eps".toList ['ε']))

/-- The operator-popping loop of `Parser.toPrenexHelper` (lines 172-177):
pop stack entries to the output while the incoming priority `p` is `≤` the
top's priority (when `useEq` is true, the `STAR` branch at line 173) or `<`
it (the other-operators branch at line 176).  The loop stops at the
wrapping bracket (rank 0); an empty stack cannot occur in `toPrenex`
because the whole expression is wrapped in brackets. -/
def popOps (useEq : Bool) (p : Nat) : List RTok → List RTok → List RTok × List RTok
  | [], out => ([], out)
  | RTok.op t :: rest, out =>
    if (if useEq then p ≤ priority t else p < priority t) then
      popOps useEq p rest (out ++ [RTok.op t])
    else (RTok.op t :: rest, out)
  | RTok.ch s :: rest, out => (RTok.ch s :: rest, out)

/-- The right-bracket branch of `Parser.toPrenexHelper` (lines 167-170):
pop everything to the output until a left bracket, then drop that bracket.
(The source indexes `stack[-1]` unconditionally; the empty-stack case only
arises for unbalanced input, outside every claim.) -/
def popUntilL : List RTok → List RTok → List RTok × List RTok
  | [], out => ([], out)
  | RTok.op '(' :: rest, out => (rest, out)
  | t :: rest, out => popUntilL rest (out ++ [t])

/-- One iteration of the main loop of `Parser.toPrenexHelper`
(lines 161-178), transforming the `(stack, out)` pair. -/
def shuntStep (st : List RTok × List RTok) (t : RTok) : List RTok × List RTok :=
  match t with
  | RTok.ch s => (st.1, st.2 ++ [RTok.ch s])
  | RTok.op c =>
    if c = '(' then (RTok.op '(' :: st.1, st.2)
    else if c = ')' then popUntilL st.1 st.2
    else
      let so :=
        if c = '*' then popOps true (priority c) st.1 st.2
        else popOps false (priority c) st.1 st.2
      (RTok.op c :: so.1, so.2)

/-- The reverse-traversal rewrite of `Parser.toPrenexHelper` (lines 186-199):
operators become their uppercase keywords followed by a space, left/right
brackets produce nothing (no branch of the `if`/`elif` chain matches them),
and a `Character` contributes its `chr` string plus a space. -/
def tokStr : RTok → Str
  | RTok.op '.' => "CONCAT ".toList
  | RTok.op '|' => "UNION ".toList
  | RTok.op '*' => "STAR ".toList
  | RTok.op '+' => "PLUS ".toList
  | RTok.op '?' => "MAYBE ".toList
  | RTok.op _ => []
  | RTok.ch s => s ++ [' ']

/-- `Parser.toPrenexHelper` (Parser.py lines 141-208): shunting-yard pass
producing `(stack, out)`, flush of the remaining stack into the output
(lines 181-182, "clear the stack and add all the items to the output" per
the source docstring), reverse-traversal conversion to the prenex string,
the whitespace re-quoting replacements, removal of the final space
(`prefix[:-1]`), and the `ε`→`eps` restoration (line 207). -/
def toPrenexHelper (regex : List RTok) : Str :=
  let so := regex.foldl shuntStep ([], [])
  let out := so.2 ++ so.1
  let prefix0 := (out.reverse).flatMap tokStr
  let prefix1 := strReplace prefix0 [' ', '\n', ' '] ['\n']
  let prefix2 := strReplace prefix1 [' ', '\r', ' '] ['\r']
  let prefix3 := strReplace prefix2 [' ', '\t', ' '] ['\t']
  strReplace prefix3.dropLast ['ε'] "eps".toList

/-- Swap of `(` and `)` in `Parser.toPrenex` (lines 225-231). -/
def swapBracket : RTok → RTok
  | RTok.op '(' => RTok.op ')'
  | RTok.op ')' => RTok.op '('
  | t => t

/-- `Parser.toPrenex` (Parser.py lines 211-235): preprocess, reverse,
swap brackets, wrap the whole list in one bracket pair, and run the
shunting-yard helper. -/
def toPrenex (regex : Str) : Str :=
  let rlist := (preprocess regex).reverse.map swapBracket
  toPrenexHelper (RTok.op '(' :: rlist ++ [RTok.op ')'])

/-- Follows the spec's words (§4.1): the variant of the shunting pass in
which every repetition operator (star, plus and maybe) pops
equal-precedence stack entries as well as strictly-higher ones, whereas
the source applies the equal-or-higher threshold only when the token
compares equal to `STAR`.  Used to compare the source behaviour against
the claimed one. -/
def shuntStepSpec (st : List RTok × List RTok) (t : RTok) : List RTok × List RTok :=
  match t with
  | RTok.ch s => (st.1, st.2 ++ [RTok.ch s])
  | RTok.op c =>
    if c = '(' then (RTok.op '(' :: st.1, st.2)
    else if c = ')' then popUntilL st.1 st.2
    else
      let so :=
        if c = '*' ∨ c = '+' ∨ c = '?' then popOps true (priority c) st.1 st.2
        else popOps false (priority c) st.1 st.2
      (RTok.op c :: so.1, so.2)

/-- Follows the spec's words: `toPrenexHelper` built on `shuntStepSpec`. -/
def toPrenexHelperSpec (regex : List RTok) : Str :=
  let so := regex.foldl shuntStepSpec ([], [])
  let out := so.2 ++ so.1
  let prefix0 := (out.reverse).flatMap tokStr
  let prefix1 := strReplace prefix0 [' ', '\n', ' '] ['\n']
  let prefix2 := strReplace prefix1 [' ', '\r', ' '] ['\r']
  let prefix3 := strReplace prefix2 [' ', '\t', ' '] ['\t']
  strReplace prefix3.dropLast ['ε'] "eps".toList

/-- Follows the spec's words: `toPrenex` built on `toPrenexHelperSpec`. -/
def toPrenexSpec (regex : Str) : Str :=
  let rlist := (preprocess regex).reverse.map swapBracket
  toPrenexHelperSpec (RTok.op '(' :: rlist ++ [RTok.op ')'])

end Parser

/-! ## AST.py — prenex token stream to expression tree -/

/-- The `eps` label used for epsilon transitions throughout `NFA.py`. -/
def epsTok : Str := "eps".toList

namespace AST

/-- The splitting loop of `AST.customSplit` (AST.py lines 32-44): split on
spaces, except that spaces between an odd and even quote are kept inside the
current token.  `token` is the token accumulated so far. -/
def customSplitGo : Str → Bool → Str → List Str
  | [], _, token => [token]
  | c :: rest, inQ, token =>
    let inQ2 := if c = quoteChar then !inQ else inQ
    if c = ' ' ∧ inQ2 = false then token :: customSplitGo rest inQ2 []
    else customSplitGo rest inQ2 (token ++ [c])

/-- The unquoting pass of `AST.customSplit` (lines 46-49): a three-character
token quoted on both ends becomes its middle character.  (The source rewrites
via `tokens.index`, which over a full pass is elementwise: each replaced
token has length 1 and so can never be matched by `tokens.index` again.) -/
def unquoteTok (t : Str) : Str :=
  match t with
  | [a, b, c] => if a = quoteChar ∧ c = quoteChar then [b] else t
  | _ => t

/-- `AST.customSplit` (AST.py lines 26-51). -/
def customSplit (prenex : Str) : List Str :=
  (customSplitGo prenex false []).map unquoteTok

/-- An expression-tree node (`Node` in AST.py): a token and its children. -/
inductive PNode
  | mk (token : Str) (children : List PNode)

/-- `PNode.token`. -/
def PNode.token : PNode → Str
  | PNode.mk t _ => t

/-- The arity table of `AST.createNode` (AST.py lines 97-106). -/
def numChildren (token : Str) : Nat :=
  if token = "STAR".toList ∨ token = "PLUS".toList ∨ token = "MAYBE".toList then 1
  else if token = "UNION".toList ∨ token = "CONCAT".toList then 2
  else 0

/-- `AST.fromPrenex` (AST.py lines 109-116): pop one token, resolve its arity,
recursively parse that many children.  `next` on an exhausted iterator raises
`StopIteration`, modelled by `none`.  `fuel` bounds the recursion depth; it
is always supplied as at least the token count, which the parse never
exhausts because every recursion level first consumes a token. -/
def fromPrenexAux : Nat → List Str → Option (PNode × List Str)
  | 0, _ => none
  | _ + 1, [] => none
  | fuel + 1, t :: rest =>
    match numChildren t with
    | 1 =>
      (fromPrenexAux fuel rest).bind (fun p => some (PNode.mk t [p.1], p.2))
    | 2 =>
      (fromPrenexAux fuel rest).bind (fun p1 =>
        (fromPrenexAux fuel p1.2).map (fun p2 => (PNode.mk t [p1.1, p2.1], p2.2)))
    | _ => some (PNode.mk t [], rest)

/-- `AST.fromPrenex`, returning the parsed root and the unconsumed tokens
(the source leaves them in the iterator and never checks them). -/
def fromPrenex (toks : List Str) : Option (PNode × List Str) :=
  fromPrenexAux toks.length toks

/-- `AST(prenex)` followed by `ast.fromPrenex()` and `ast.getRoot()` as done
by `NFA.fromPrenex` (NFA.py lines 210-212): split the prenex string and parse
the root node, ignoring unconsumed tokens. -/
def parseRoot (prenex : Str) : Option PNode :=
  (fromPrenex (customSplit prenex)).map (fun p => p.1)

end AST

/-! ## NFA.py — Thompson construction and epsilon closures -/

/-- The NFA record (NFA.py lines 21-33): single start and accept state,
state list, and labelled transitions (`eps` labels epsilon edges).  The
`epsilonClosures` dictionary the source caches on the object is recomputed
on demand by `NFA.closureOf` below with identical values. -/
structure NFA where
  q0 : Nat
  qf : Nat
  states : List Nat
  transitions : List (Nat × Str × Nat)
deriving DecidableEq, Repr

namespace NFA

/-- `NFA.next` (NFA.py lines 45-47): all states reachable from `s` on the
exact label `ch`.  (The source builds a Python set; only membership in the
result is ever relevant downstream, as every use re-canonicalizes.) -/
def next (nfa : NFA) (s : Nat) (ch : Str) : List Nat :=
  (nfa.transitions.filter (fun t => t.1 = s ∧ t.2.1 = ch)).map (fun t => t.2.2)

/-- The depth-first traversal of `NFA.computeEpsilonClosure` (NFA.py lines
55-79).  In the source the `visited` set and the accumulated closure receive
exactly the same elements, so a single accumulator models both.  `fuel`
bounds the recursion depth; each recursive call is on a state not yet in the
accumulator, so `nfa.states.length + 1` is always enough. -/
def epsClosureGo (nfa : NFA) : Nat → Nat → List Nat → List Nat
  | 0, _, visited => visited
  | fuel+1, s, visited =>
    (nfa.next s epsTok).foldl
      (fun acc t => if t ∈ acc then acc else epsClosureGo nfa fuel t acc)
      (visited ++ [s])

/-- `NFA.computeEpsilonClosure(s)`: the set of states reachable from `s`
through epsilon edges only, including `s` itself. -/
def closureOf (nfa : NFA) (s : Nat) : List Nat :=
  epsClosureGo nfa (nfa.states.length + 1) s []

/-- `NFA.atomNFA` (NFA.py lines 116-122), with the global `curr_state_idx`
counter threaded explicitly. -/
def atomNFA (ch : Str) (idx : Nat) : NFA × Nat :=
  (⟨idx, idx + 1, [idx, idx + 1], [(idx, ch, idx + 1)]⟩, idx + 2)

/-- `NFA.concatNFA` (NFA.py lines 125-131): allocates no states. -/
def concatNFA (n1 n2 : NFA) : NFA :=
  ⟨n1.q0, n2.qf, n1.states ++ n2.states,
    (n1.qf, epsTok, n2.q0) :: (n1.transitions ++ n2.transitions)⟩

/-- `NFA.unionNFA` (NFA.py lines 134-141). -/
def unionNFA (n1 n2 : NFA) (idx : Nat) : NFA × Nat :=
  (⟨idx, idx + 1, idx :: (idx + 1) :: (n1.states ++ n2.states),
    (idx, epsTok, n1.q0) :: (idx, epsTok, n2.q0) :: (n1.qf, epsTok, idx + 1) ::
      (n2.qf, epsTok, idx + 1) :: (n1.transitions ++ n2.transitions)⟩, idx + 2)

/-- `NFA.starNFA` (NFA.py lines 144-151). -/
def starNFA (n : NFA) (idx : Nat) : NFA × Nat :=
  (⟨idx, idx + 1, idx :: (idx + 1) :: n.states,
    (idx, epsTok, n.q0) :: (n.qf, epsTok, idx + 1) :: (idx, epsTok, idx + 1) ::
      (n.qf, epsTok, n.q0) :: n.transitions⟩, idx + 2)

/-- `NFA.plusNFA` (NFA.py lines 154-161): like star but without the
zero-iterations edge. -/
def plusNFA (n : NFA) (idx : Nat) : NFA × Nat :=
  (⟨idx, idx + 1, idx :: (idx + 1) :: n.states,
    (idx, epsTok, n.q0) :: (n.qf, epsTok, idx + 1) ::
      (n.qf, epsTok, n.q0) :: n.transitions⟩, idx + 2)

/-- `NFA.maybeNFA` (NFA.py lines 164-166): reuses the child's endpoints. -/
def maybeNFA (n : NFA) : NFA :=
  ⟨n.q0, n.qf, n.states, (n.q0, epsTok, n.qf) :: n.transitions⟩

/-- `NFA.isAtom` (NFA.py lines 169-185). -/
def isAtom (token : Str) : Bool :=
  if token.length = 0 then false
  else if token.length = 1 then true
  else if token.length = 3 ∧ token.head? = some quoteChar ∧
      token.getLast? = some quoteChar then true
  else token = epsTok ∨ token = "void".toList

/-- `NFA.fromAST` (NFA.py lines 188-202) with the state counter threaded
explicitly.  The source falls off the end (returning `None`) on a token that
is neither an atom nor an operator keyword, and raises on a missing child;
both are `none`. -/
def fromAST : AST.PNode → Nat → Option (NFA × Nat)
  | AST.PNode.mk tok children, idx =>
    if isAtom tok then some (atomNFA tok idx)
    else if tok = "STAR".toList then
      match children with
      | [c] => (fromAST c idx).map (fun p => starNFA p.1 p.2)
      | _ => none
    else if tok = "PLUS".toList then
      match children with
      | [c] => (fromAST c idx).map (fun p => plusNFA p.1 p.2)
      | _ => none
    else if tok = "MAYBE".toList then
      match children with
      | [c] => (fromAST c idx).map (fun p => (maybeNFA p.1, p.2))
      | _ => none
    else if tok = "CONCAT".toList then
      match children with
      | [c1, c2] =>
        (fromAST c1 idx).bind (fun p1 =>
          (fromAST c2 p1.2).map (fun p2 => (concatNFA p1.1 p2.1, p2.2)))
      | _ => none
    else if tok = "UNION".toList then
      match children with
      | [c1, c2] =>
        (fromAST c1 idx).bind (fun p1 =>
          (fromAST c2 p1.2).map (fun p2 => unionNFA p1.1 p2.1 p2.2))
      | _ => none
    else none

/-- `NFA.fromPrenex` (NFA.py lines 205-217): parse the prenex string to an
AST (counter reset to 0) and Thompson-construct the NFA.  The epsilon
closures the source caches here are recomputed on demand by `closureOf`. -/
def fromPrenex (prenex : Str) : Option NFA :=
  (AST.parseRoot prenex).bind (fun t => (fromAST t 0).map (fun p => p.1))

end NFA

/-! ## DFA.py — subset construction -/

/-- The DFA record (DFA.py lines 18-30) after the integer remap: start
state, final states, state list, labelled transitions and the sink field.
(Before the remap the source keys states by their `setToStr` strings; the
embedding runs the subset construction on the canonical sorted id-lists
those strings serialize, which `setToStr` maps to them injectively.) -/
structure DFA where
  q0 : Nat
  qfs : List Nat
  states : List Nat
  transitions : List (Nat × Str × Nat)
  sink : Nat
deriving DecidableEq, Repr

namespace DFA

/-- `DFA.next` (DFA.py lines 39-47): the first matching transition, or
`none` when the transition is undefined. -/
def next (d : DFA) (s : Nat) (ch : Str) : Option Nat :=
  (d.transitions.find? (fun t => t.1 = s ∧ t.2.1 = ch)).map (fun t => t.2.2)

/-- `DFA.isFinal` (DFA.py lines 66-68). -/
def isFinal (d : DFA) (s : Nat) : Bool := s ∈ d.qfs

/-- The walk of `DFA.accepts` (DFA.py lines 55-63) from a given state:
step on each character, return `False` as soon as a transition is
undefined, and test finality at the end of the string. -/
def acceptsFrom (d : DFA) (s : Nat) : Str → Bool
  | [] => d.isFinal s
  | c :: rest =>
    match d.next s [c] with
    | none => false
    | some s2 => acceptsFrom d s2 rest

/-- `DFA.accepts` (DFA.py lines 55-63). -/
def accepts (d : DFA) (w : Str) : Bool := acceptsFrom d d.q0 w

/-- `DFA.getAlphabet` (DFA.py lines 86-93): the sorted set of non-`eps`
labels of the NFA. -/
def getAlphabet (nfa : NFA) : List Str :=
  sortDedupStr ((nfa.transitions.filter (fun t => t.2.1 ≠ epsTok)).map (fun t => t.2.1))

/-- The per-symbol target of the subset construction (DFA.py lines 112-116):
the union of the epsilon closures of all states reachable from the group on
`ch`, in canonical sorted duplicate-free form (the source keeps a Python set
and serializes it sorted). -/
def groupNext (nfa : NFA) (g : List Nat) (ch : Str) : List Nat :=
  sortDedupNat (g.flatMap (fun s => (nfa.next s ch).flatMap (fun t => nfa.closureOf t)))

/-- One alphabet symbol of the inner loop (DFA.py lines 111-124), acting on
the accumulator `(state list, newly discovered groups, transitions)`:
compute the target group, append it to the state list and the queue when
unseen, and record the transition regardless. -/
def subsetStep (nfa : NFA) (g : List Nat)
    (acc : List (List Nat) × List (List Nat) × List (List Nat × Str × List Nat))
    (ch : Str) :
    List (List Nat) × List (List Nat) × List (List Nat × Str × List Nat) :=
  let target := groupNext nfa g ch
  let acc1 :=
    if target ∈ acc.1 then acc
    else (acc.1 ++ [target], acc.2.1 ++ [target], acc.2.2)
  (acc1.1, acc1.2.1, acc1.2.2 ++ [(g, ch, target)])

/-- The worklist loop of `DFA.fromNFA` (DFA.py lines 107-124): process each
pending group, record a transition for every alphabet symbol, and append
target groups not seen before both to the state list and to the queue.
`fuel` bounds the number of processed groups; since every enqueued group is
a sorted duplicate-free list over the NFA's states and is enqueued only
once, `2 ^ nfa.states.length + 1` always lets the queue drain. -/
def subsetGo (nfa : NFA) (alphabet : List Str) :
    Nat → List (List Nat) → List (List Nat) →
    List (List Nat × Str × List Nat) →
    List (List Nat) × List (List Nat × Str × List Nat)
  | 0, _, states, tr => (states, tr)
  | _ + 1, [], states, tr => (states, tr)
  | fuel + 1, g :: pending, states, tr =>
    let step := alphabet.foldl (subsetStep nfa g) (states, [], tr)
    subsetGo nfa alphabet fuel (pending ++ step.2.1) step.1 step.2.2

/-- The epsilon closure of the NFA's start state in canonical form: the
group the subset construction starts from (DFA.py line 104). -/
def startGroup (nfa : NFA) : List Nat := sortDedupNat (nfa.closureOf nfa.q0)

/-- The completed worklist run of `DFA.fromNFA` (lines 107-124): the final
group list and group transitions. -/
def subsetResult (nfa : NFA) :
    List (List Nat) × List (List Nat × Str × List Nat) :=
  subsetGo nfa (getAlphabet nfa) (2 ^ nfa.states.length + 1)
    [startGroup nfa] [startGroup nfa] []

/-- The groups (canonical sorted id-sets) of the subset construction. -/
def groupStates (nfa : NFA) : List (List Nat) := (subsetResult nfa).1

/-- The group transitions of the subset construction. -/
def groupTrans (nfa : NFA) : List (List Nat × Str × List Nat) :=
  (subsetResult nfa).2

/-- The accepting groups, computed as in DFA.py line 127: a group is
accepting when the decimal string of the NFA's accept state occurs as a
substring of the group's serialized form (Python's `str(nfa.qf) in state`
on the underscore-joined serialization). -/
def groupQfs (nfa : NFA) : List (List Nat) :=
  (groupStates nfa).filter (fun g => containsSub (setToStr g) (natRepr nfa.qf))

/-- The first-use order in which `DFAMapper.get_mapping` (DFA.py lines
130-142) meets the group keys: `dfa.map` evaluates the `DFA` constructor
arguments left to right — `q0`, the final states, the state list, both
endpoints of each transition — deduplicating on first occurrence. -/
def mapKeys (nfa : NFA) : List (List Nat) :=
  ([startGroup nfa] ++ groupQfs nfa ++ groupStates nfa ++
      (groupTrans nfa).flatMap (fun t => [t.1, t.2.2])).foldl
    (fun acc g => if g ∈ acc then acc else acc ++ [g]) []

/-- The dense integer id the mapper assigns to a group. -/
def groupIdx (nfa : NFA) (g : List Nat) : Nat := (mapKeys nfa).indexOf g

/-- `DFA.fromNFA` (DFA.py lines 96-160): subset construction from the
epsilon closure of the NFA start, the accepting-group computation by the
substring test `str(nfa.qf) in state` (line 127), the remap of groups to
dense integers, and sink detection.  The remap mapper is invoked in the
order of the `DFA` constructor arguments — `q0`, the final states, the
state list, both endpoints of every transition — and finally on the `None`
sink placeholder, which therefore also receives the next free id.  Because
of that, `dfa.sink is None` (line 151) can never hold afterwards, so the
sink-synthesis block at lines 150-158 is dead code: when no existing state
qualifies at lines 144-148, the sink field keeps the fresh id assigned to
the placeholder, an id outside the state list. -/
def fromNFA (nfa : NFA) : DFA :=
  let alphabet := getAlphabet nfa
  let d0 : DFA :=
    ⟨groupIdx nfa (startGroup nfa), (groupQfs nfa).map (groupIdx nfa),
      (groupStates nfa).map (groupIdx nfa),
      (groupTrans nfa).map (fun t => (groupIdx nfa t.1, t.2.1, groupIdx nfa t.2.2)),
      (mapKeys nfa).length⟩
  match d0.states.find?
      (fun s => alphabet.all (fun ch => next d0 s ch = some s) && !(d0.isFinal s)) with
  | some s => { d0 with sink := s }
  | none => d0

/-- `DFA.fromPrenex` (DFA.py lines 163-167). -/
def fromPrenex (prenex : Str) : Option DFA :=
  (NFA.fromPrenex prenex).map fromNFA

end DFA

/-! ## Lex.py — the multi-pattern lexer -/

namespace Lexer

/-- The escaped-operator rewrite of `Lexer.__init__` (Lex.py lines 26-31):
each `\(`, `\)`, `\*`, `\+` becomes the quoted literal `'('`, `')'`, `'*'`,
`'+'`, applied to every configured regex. -/
def escRewrite (r : Str) : Str :=
  strReplace (strReplace (strReplace (strReplace r
    [backslashChar, '('] [quoteChar, '(', quoteChar])
    [backslashChar, ')'] [quoteChar, ')', quoteChar])
    [backslashChar, '*'] [quoteChar, '*', quoteChar])
    [backslashChar, '+'] [quoteChar, '+', quoteChar]

/-- The state of the caller's configuration dictionary after
`Lexer.__init__` returns (Lex.py lines 23-31): the constructor aliases the
dictionary and assigns each existing key the rewritten regex in place, so
the caller observes the same ordered keys with rewritten values. -/
def lexerInitConfigs (cfg : List (Str × Str)) : List (Str × Str) :=
  cfg.map (fun p => (p.1, escRewrite p.2))

/-- `dfa.map(lambda x: x + counter)` (Lex.py line 41): shift every state id,
including the sink field, by `k`. -/
def shiftDFA (d : DFA) (k : Nat) : DFA :=
  ⟨d.q0 + k, d.qfs.map (· + k), d.states.map (· + k),
    d.transitions.map (fun t => (t.1 + k, t.2.1, t.2.2 + k)), d.sink + k⟩

/-- The DFA-building loop of `Lexer.__init__` (Lex.py lines 35-43): for each
configuration entry, compile the (already rewritten) regex through the whole
pipeline, shift its states by the running counter, and advance the counter
by the NFA's state count. -/
def lexerDFAsGo : List (Str × Str) → Nat → Option (List (Str × DFA))
  | [], _ => some []
  | (tok, regex) :: rest, counter =>
    match NFA.fromPrenex (Parser.toPrenex regex) with
    | none => none
    | some nfa =>
      let dfa := shiftDFA (DFA.fromNFA nfa) counter
      (lexerDFAsGo rest (counter + nfa.states.length)).map (fun l => (tok, dfa) :: l)

/-- `Lexer.__init__` (Lex.py lines 18-43): the ordered token → DFA list the
lexer drives, built from the rewritten configurations. -/
def lexerInit (cfg : List (Str × Str)) : Option (List (Str × DFA)) :=
  lexerDFAsGo (lexerInitConfigs cfg) 0

/-- The per-DFA simulation of `Lexer.lex` (Lex.py lines 86-100), from
absolute index `idx` in state `state`: returns the recorded accepting
endpoints, the index at which the walk stopped, and whether it stopped by
hitting the sink or an undefined transition (the `num_sinks` contribution). -/
def simWalkAux (d : DFA) (word : Str) : Nat → Nat → Nat → List Nat × Nat × Bool
  | 0, idx, _ => ([], idx, false)
  | fuel + 1, idx, state =>
    if h : idx < word.length then
      match d.next state [word.get ⟨idx, h⟩] with
      | none => ([], idx, true)
      | some s2 =>
        let m := if d.isFinal s2 then [idx] else []
        if s2 = d.sink then (m, idx, true)
        else
          let r := simWalkAux d word fuel (idx + 1) s2
          (m ++ r.1, r.2.1, r.2.2)
    else ([], idx, false)

/-- The walk, with `fuel` set to the remaining input length; `fuel` runs out
exactly when the cursor reaches the end of input, which is also the loop's
exit condition, so the two cases coincide. -/
def simWalk (d : DFA) (word : Str) (idx : Nat) (state : Nat) :
    List Nat × Nat × Bool :=
  simWalkAux d word (word.length - idx) idx state

/-- The DFA loop of `Lexer.lex` (Lex.py lines 81-105): run every DFA from
`start`, collect per-token endpoint lists (the `defaultdict` creates an
entry only when an endpoint is appended), track the furthest index reached,
and stop early when the sink counter reaches `total` (which, as in the
source, can only happen after the last DFA). -/
def collectGo (word : Str) (start : Nat) (total : Nat) :
    List (Str × DFA) → Nat → List (Str × List Nat) → Nat →
    List (Str × List Nat) × Nat
  | [], _, entries, failed => (entries, failed)
  | (tok, d) :: rest, numSinks, entries, failed =>
    let r := simWalk d word start d.q0
    let entries2 := if r.1 ≠ [] then entries ++ [(tok, r.1)] else entries
    let failed2 := max failed r.2.1
    let numSinks2 := numSinks + (if r.2.2 then 1 else 0)
    if numSinks2 = total then (entries2, failed2)
    else collectGo word start total rest numSinks2 entries2 failed2

/-- One lexing step's candidate collection: the `(matches, failed_curr_idx)`
pair `Lexer.lex` has after the loop at Lex.py lines 81-105. -/
def collectMatches (dfas : List (Str × DFA)) (word : Str) (start : Nat) :
    List (Str × List Nat) × Nat :=
  collectGo word start dfas.length dfas 0 [] 0

/-- `Lexer.getLongestMatch` (Lex.py lines 46-66): `None` on an empty
candidate dictionary; otherwise traverse the entries in reverse declaration
order, overwriting the running best whenever an endpoint is `>=` it, so the
earliest-declared category holding the final maximum wins.  The token part
is `Option`al because the source initializes it to `None`. -/
def getLongestMatch (md : List (Str × List Nat)) : Option (Option Str × Nat) :=
  if md = [] then none
  else some (md.reverse.foldl
    (fun acc e => e.2.foldl (fun a m => if a.2 ≤ m then (some e.1, m) else a) acc)
    (none, 0))

/-- The index of the last newline of `s`, Python's `s.rfind('\n')` with
`none` for `-1`. -/
def rfindNl : Str → Option Nat
  | [] => none
  | c :: rest =>
    match rfindNl rest with
    | some p => some (p + 1)
    | none => if c = '\n' then some 0 else none

/-- The error message of `Lexer.lex` (Lex.py lines 113-131).  Single-line
inputs report the raw furthest index as the character position (line 118);
inputs containing a newline count the newlines at indices `0..failed`
inclusive for the 0-based line and report `failed - word[:failed].rfind_nl`
as the in-line character position (line 130); `EOF` replaces the position
exactly when the furthest index equals the input length. -/
def renderError (word : Str) (failed : Nat) : Str :=
  if word.count '\n' = 0 then
    if failed = word.length then
      "No viable alternative at character EOF, line 0".toList
    else
      "No viable alternative at character ".toList ++ natRepr failed ++
        ", line 0".toList
  else
    let line := (word.take (failed + 1)).count '\n'
    if failed = word.length then
      "No viable alternative at character EOF, line ".toList ++ natRepr line
    else
      let col :=
        match rfindNl (word.take failed) with
        | none => failed + 1
        | some p => failed - p
      "No viable alternative at character ".toList ++ natRepr col ++
        ", line ".toList ++ natRepr line

/-- The main loop of `Lexer.lex` (Lex.py lines 76-133): while input remains,
collect candidates, pick the longest match (the `except` branch fires
exactly when the candidate dictionary is empty, i.e. `getLongestMatch`
returned `None`), emit the lexeme and advance past it.  `fuel` bounds the
iteration count; each iteration advances `start` by at least one, so
`word.length + 1` is always enough. -/
def lexLoop (dfas : List (Str × DFA)) (word : Str) :
    Nat → Nat → List (Option Str × Str) → Except Str (List (Option Str × Str))
  | 0, _, acc => Except.ok acc
  | fuel + 1, start, acc =>
    if start < word.length then
      let cm := collectMatches dfas word start
      match getLongestMatch cm.1 with
      | none => Except.error (renderError word cm.2)
      | some (tokOpt, idx) =>
        lexLoop dfas word fuel (idx + 1)
          (acc ++ [(tokOpt, (word.take (idx + 1)).drop start)])
    else Except.ok acc

/-- `Lexer.lex` (Lex.py lines 69-133). -/
def lex (dfas : List (Str × DFA)) (word : Str) :
    Except Str (List (Option Str × Str)) :=
  lexLoop dfas word (word.length + 1) 0 []

end Lexer

/-! ## Derived definitions used by the verification -/

namespace DFA

/-- The pure walk of `DFA.accepts`: the state reached after consuming the
string, or `none` as soon as a transition is undefined. -/
def walk (d : DFA) (s : Nat) : Str → Option Nat
  | [] => some s
  | c :: rest =>
    match d.next s [c] with
    | none => none
    | some s2 => walk d s2 rest

end DFA

namespace NFA

/-- Well-formedness of an NFA record: the start state is a state and every
transition runs between states.  Thompson construction establishes this. -/
def WF (nfa : NFA) : Prop :=
  nfa.q0 ∈ nfa.states ∧
    ∀ t ∈ nfa.transitions, t.1 ∈ nfa.states ∧ t.2.2 ∈ nfa.states

end NFA

namespace Lexer

/-- Follows the spec's words (§4.5 step 3): the error rendering the claim
describes, with a 1-based column (offset from the last newline before the
failure index, starting at 1) and the 0-based newline count as line, and
`EOF` exactly when the furthest index equals the input length.  Used to
compare the source's rendering against the claimed one. -/
def renderErrorClaim (word : Str) (failed : Nat) : Str :=
  let line := (word.take (failed + 1)).count '\n'
  if failed = word.length then
    "No viable alternative at character EOF, line ".toList ++ natRepr line
  else
    let col :=
      match rfindNl (word.take failed) with
      | none => failed + 1
      | some p => failed - p
    "No viable alternative at character ".toList ++ natRepr col ++
      ", line ".toList ++ natRepr line

/-- The largest endpoint in one candidate list (`0` when empty). -/
def listMax (l : List Nat) : Nat := l.foldr max 0

/-- The largest endpoint over all candidate entries (`0` when none). -/
def globalMax (md : List (Str × List Nat)) : Nat :=
  md.foldr (fun e acc => max (listMax e.2) acc) 0

end Lexer

namespace Parser

/-- A plain literal character: not one of the operator glyphs consumed by
`Parser.preprocess`, not a quote, not `[`, not a space (an unquoted space
splits prenex tokens apart), and not `ε` (which the prenex rewrite would
turn back into `eps`). -/
def literalOk (c : Char) : Prop :=
  c ≠ '(' ∧ c ≠ ')' ∧ c ≠ '*' ∧ c ≠ '+' ∧ c ≠ '?' ∧ c ≠ '|' ∧ c ≠ '.' ∧
    c ≠ '[' ∧ c ≠ quoteChar ∧ c ≠ ' ' ∧ c ≠ 'ε'

instance (c : Char) : Decidable (literalOk c) := by
  unfold literalOk; infer_instance

end Parser

/-! # Theorems

General helper lemmas first, then for each claim its theorem (with witness
or counterexample where required). -/

/-- `DFA.acceptsFrom` is the finality test of the pure walk. -/
theorem acceptsFrom_eq_walk (d : DFA) (s : Nat) (w : Str) :
    DFA.acceptsFrom d s w = ((DFA.walk d s w).map d.isFinal).getD false := by
  induction w generalizing s with
  | nil => rfl
  | cons c rest ih =>
    simp only [DFA.acceptsFrom, DFA.walk]
    cases h : d.next s [c] with
    | none => simp
    | some s2 => simpa using ih s2

/-- The DFA walk splits over appended inputs. -/
theorem walk_append (d : DFA) (s : Nat) (u v : Str) :
    DFA.walk d s (u ++ v) = (DFA.walk d s u).bind (fun t => DFA.walk d t v) := by
  induction u generalizing s with
  | nil => simp [DFA.walk]
  | cons c rest ih =>
    simp only [List.cons_append, DFA.walk]
    cases h : d.next s [c] with
    | none => simp
    | some s2 => simpa using ih s2

/-- C10: `DFA.accepts` is total on every DFA and input: when the walk
reaches a state-symbol pair with no defined transition, the whole string is
rejected (the source returns `False` at DFA.py lines 61-62 instead of
stepping further). -/
theorem claim10_undefined_transition_rejects
    (d : DFA) (u : Str) (c : Char) (v : Str) (s : Nat)
    (h1 : DFA.walk d d.q0 u = some s) (h2 : d.next s [c] = none) :
    d.accepts (u ++ c :: v) = false := by
  show DFA.acceptsFrom d d.q0 (u ++ c :: v) = false
  rw [acceptsFrom_eq_walk, walk_append, h1]
  simp [DFA.walk, h2]

/-- Witness for C10 at a concrete transitionless DFA and input `"x"`. -/
theorem claim10_witness :
    DFA.accepts ⟨0, [0], [0], [], 0⟩ (['x'] : Str) = false :=
  claim10_undefined_transition_rejects ⟨0, [0], [0], [], 0⟩ [] 'x' [] 0 rfl rfl

/-- `AST.createNode` classifies every token as nullary, unary or binary. -/
theorem numChildren_cases (t : Str) :
    AST.numChildren t = 0 ∨ AST.numChildren t = 1 ∨ AST.numChildren t = 2 := by
  unfold AST.numChildren
  split
  · right; left; rfl
  · split
    · right; right; rfl
    · left; rfl

/-- A successful parse consumes at least one token. -/
theorem fromPrenexAux_consumes :
    ∀ (fuel : Nat) (toks : List Str) (n : AST.PNode) (r : List Str),
      AST.fromPrenexAux fuel toks = some (n, r) → r.length < toks.length := by
  intro fuel
  induction fuel with
  | zero => intro toks n r h; simp [AST.fromPrenexAux] at h
  | succ fuel ih =>
    intro toks n r h
    match toks with
    | [] => simp [AST.fromPrenexAux] at h
    | t :: rest =>
      rcases numChildren_cases t with h0 | h0 | h0 <;>
        simp only [AST.fromPrenexAux, h0, Option.some.injEq, Prod.mk.injEq] at h
      · rcases h with ⟨hn, hr⟩
        subst hr; simp
      · cases hx : AST.fromPrenexAux fuel rest with
        | none => rw [hx] at h; simp at h
        | some p =>
          rw [hx] at h
          simp only [Option.some_bind, Option.some.injEq, Prod.mk.injEq] at h
          have hp := ih rest p.1 p.2 (by rw [hx])
          rcases h with ⟨hn, hr⟩
          subst hr
          simp only [List.length_cons]
          omega
      · cases hx : AST.fromPrenexAux fuel rest with
        | none => rw [hx] at h; simp at h
        | some p1 =>
          rw [hx] at h
          simp only [Option.some_bind] at h
          have hp1 := ih rest p1.1 p1.2 (by rw [hx])
          cases hy : AST.fromPrenexAux fuel p1.2 with
          | none => rw [hy] at h; simp at h
          | some p2 =>
            rw [hy] at h
            have hp2 := ih p1.2 p2.1 p2.2 (by rw [hy])
            simp only [Option.map_some', Option.some.injEq, Prod.mk.injEq] at h
            rcases h with ⟨hn, hr⟩
            subst hr
            simp only [List.length_cons]
            omega

/-- The parse result does not depend on the fuel, whenever the fuel is at
least the token count. -/
theorem fromPrenexAux_fuel :
    ∀ (fuel fuel2 : Nat) (toks : List Str), toks.length ≤ fuel →
      toks.length ≤ fuel2 →
      AST.fromPrenexAux fuel toks = AST.fromPrenexAux fuel2 toks := by
  intro fuel
  induction fuel with
  | zero =>
    intro fuel2 toks h1 h2
    have : toks = [] := List.length_eq_zero.mp (Nat.le_zero.mp h1)
    subst this
    cases fuel2 <;> simp [AST.fromPrenexAux]
  | succ fuel ih =>
    intro fuel2 toks h1 h2
    match toks with
    | [] => cases fuel2 <;> simp [AST.fromPrenexAux]
    | t :: rest =>
      match fuel2, h2 with
      | fuel2 + 1, h2 =>
        rcases numChildren_cases t with h0 | h0 | h0 <;>
          simp only [AST.fromPrenexAux, h0]
        · have := ih fuel2 rest (by simpa using Nat.le_of_succ_le_succ h1)
            (by simpa using Nat.le_of_succ_le_succ h2)
          rw [this]
        · have hrest := ih fuel2 rest (by simpa using Nat.le_of_succ_le_succ h1)
            (by simpa using Nat.le_of_succ_le_succ h2)
          rw [hrest]
          cases hx : AST.fromPrenexAux fuel2 rest with
          | none => simp
          | some p1 =>
            have hp1 : p1.2.length < rest.length :=
              fromPrenexAux_consumes fuel2 rest p1.1 p1.2 (by rw [hx])
            have hlen : rest.length ≤ fuel := by
              have := Nat.le_of_succ_le_succ h1; simpa using this
            have hlen2 : rest.length ≤ fuel2 := by
              have := Nat.le_of_succ_le_succ h2; simpa using this
            have := ih fuel2 p1.2 (by omega) (by omega)
            simp only [Option.some_bind]
            rw [this]

/-- Appending extra tokens after a successfully parsed stream leaves the
parse unchanged, the extra tokens unconsumed (at any one fuel). -/
theorem fromPrenexAux_append :
    ∀ (fuel : Nat) (toks : List Str) (n : AST.PNode) (r extra : List Str),
      AST.fromPrenexAux fuel toks = some (n, r) →
      AST.fromPrenexAux fuel (toks ++ extra) = some (n, r ++ extra) := by
  intro fuel
  induction fuel with
  | zero => intro toks n r extra h; simp [AST.fromPrenexAux] at h
  | succ fuel ih =>
    intro toks n r extra h
    match toks with
    | [] => simp [AST.fromPrenexAux] at h
    | t :: rest =>
      rcases numChildren_cases t with h0 | h0 | h0 <;>
        simp only [AST.fromPrenexAux, h0, Option.some.injEq, Prod.mk.injEq]
          at h ⊢ <;>
        simp only [List.cons_append, AST.fromPrenexAux, h0, List.append_eq]
      · rcases h with ⟨hn, hr⟩
        subst hn; subst hr
        simp
      · cases hx : AST.fromPrenexAux fuel rest with
        | none => rw [hx] at h; simp at h
        | some p =>
          rw [hx] at h
          simp only [Option.some_bind, Option.some.injEq, Prod.mk.injEq] at h
          rcases h with ⟨hn, hr⟩
          have hrec := ih rest p.1 p.2 extra (by rw [hx])
          rw [hrec]
          simp [hn, hr]
      · cases hx : AST.fromPrenexAux fuel rest with
        | none => rw [hx] at h; simp at h
        | some p1 =>
          rw [hx] at h
          simp only [Option.some_bind] at h
          cases hy : AST.fromPrenexAux fuel p1.2 with
          | none => rw [hy] at h; simp at h
          | some p2 =>
            rw [hy] at h
            simp only [Option.map_some', Option.some.injEq, Prod.mk.injEq] at h
            rcases h with ⟨hn, hr⟩
            have hrec1 := ih rest p1.1 p1.2 extra (by rw [hx])
            rw [hrec1]
            simp only [Option.some_bind]
            have hrec2 := ih p1.2 p2.1 p2.2 extra (by rw [hy])
            rw [hrec2]
            simp [hn, hr]

/-- C7: `AST.fromPrenex` consumes tokens left-to-right driven by arity and
fails with the malformed-prenex condition (`StopIteration` in the source)
exactly when the stream is exhausted before all declared children are
built: the empty stream fails immediately, while a stream that parses
successfully still parses, to the same tree, after appending arbitrary
extra tokens, which are left unconsumed and cause no failure. -/
theorem claim7_ast_parse_fails_only_on_exhaustion :
    AST.fromPrenex ([] : List Str) = none ∧
    ∀ (toks : List Str) (n : AST.PNode) (r extra : List Str),
      AST.fromPrenex toks = some (n, r) →
      AST.fromPrenex (toks ++ extra) = some (n, r ++ extra) := by
  constructor
  · rfl
  · intro toks n r extra h
    unfold AST.fromPrenex at h ⊢
    have h2 : AST.fromPrenexAux (toks.length + extra.length) toks = some (n, r) := by
      rw [← fromPrenexAux_fuel toks.length (toks.length + extra.length) toks
        (Nat.le_refl _) (Nat.le_add_right _ _)]
      exact h
    have h3 := fromPrenexAux_append (toks.length + extra.length) toks n r extra h2
    simpa using h3

/-- Witness for C7: parsing the atom `a` followed by the extra token `b`
succeeds, leaving `b` unconsumed. -/
theorem claim7_witness :
    AST.fromPrenex ([['a'], ['b']] : List Str) =
      some (AST.PNode.mk ['a'] [], [['b']]) :=
  claim7_ast_parse_fails_only_on_exhaustion.2 [['a']] (AST.PNode.mk ['a'] []) []
    [['b']] rfl

/-- A string with no occurrence of the pattern is left unchanged by the
replacement scan. -/
theorem strReplaceAux_id (pat rep : Str) :
    ∀ (fuel : Nat) (s : Str), containsSub s pat = false →
      strReplaceAux pat rep fuel s = s := by
  intro fuel
  induction fuel with
  | zero => intro s _; rfl
  | succ fuel ih =>
    intro s h
    match s with
    | [] => rfl
    | c :: rest =>
      rw [containsSub] at h
      simp only [Bool.or_eq_false_iff] at h
      simp only [strReplaceAux]
      rw [if_neg (fun hc => absurd h.1 (by simp [hc.2]))]
      rw [ih rest h.2]

/-- `str.replace` is the identity when the pattern does not occur. -/
theorem strReplace_id (s pat rep : Str) (h : containsSub s pat = false) :
    strReplace s pat rep = s :=
  strReplaceAux_id pat rep s.length s h

/-- C9 counterexample: for the configuration `{"A": "a"}` (no escaped
operator sequences), the constructor leaves the caller's dictionary exactly
as it was, so after construction it still holds the original regex string,
contrary to the claim. -/
theorem claim9_counterexample :
    Lexer.lexerInitConfigs [("A".toList, "a".toList)] =
      [("A".toList, "a".toList)] := rfl

/-- C9 (amended): the constructor rewrites every configured regex in place
through the escape rewrite (keys and their order unchanged), and that
rewrite changes a regex only when one of the four escaped sequences
actually occurs: a regex containing none of them is left unchanged. -/
theorem claim9_config_rewrite_amended :
    (∀ cfg : List (Str × Str),
      (Lexer.lexerInitConfigs cfg).map Prod.fst = cfg.map Prod.fst ∧
      (Lexer.lexerInitConfigs cfg).map Prod.snd =
        cfg.map (fun p => Lexer.escRewrite p.2)) ∧
    (∀ r : Str,
      containsSub r [backslashChar, '('] = false →
      containsSub r [backslashChar, ')'] = false →
      containsSub r [backslashChar, '*'] = false →
      containsSub r [backslashChar, '+'] = false →
      Lexer.escRewrite r = r) := by
  constructor
  · intro cfg
    constructor <;> simp [Lexer.lexerInitConfigs]
  · intro r h1 h2 h3 h4
    unfold Lexer.escRewrite
    rw [strReplace_id _ _ _ h1, strReplace_id _ _ _ h2,
      strReplace_id _ _ _ h3, strReplace_id _ _ _ h4]

/-- Witness for C9 (amended) at the escape-free regex `ab`. -/
theorem claim9_witness : Lexer.escRewrite ("ab".toList) = "ab".toList :=
  claim9_config_rewrite_amended.2 ("ab".toList) (by decide) (by decide)
    (by decide) (by decide)

/-- C6 counterexample: on the regex `a+*` the source compiles to
`STAR PLUS a`, while the claimed equal-or-higher popping for every
repetition operator (the spec-following variant) would produce the
different stream `PLUS a STAR`: the incoming `+` does not pop the `*` of
equal precedence from the stack. -/
theorem claim6_counterexample :
    Parser.toPrenex ("a+*".toList) = "STAR PLUS a".toList ∧
    Parser.toPrenexSpec ("a+*".toList) = "PLUS a STAR".toList ∧
    Parser.toPrenex ("a+*".toList) ≠ Parser.toPrenexSpec ("a+*".toList) :=
  ⟨rfl, rfl, by decide⟩

/-- C6 (amended): in the shunting pass, only a token equal to `STAR` pops
stack entries of equal precedence; reading `PLUS` or `MAYBE` with a
repetition operator on top of the stack pops nothing (only strictly-higher
entries would be popped) and pushes on top of it, whereas reading `STAR`
with a repetition operator on top (above the wrapping bracket) pops it. -/
theorem claim6_star_only_pops_ties_amended :
    (∀ (c t : Char) (rest out : List RTok), c = '+' ∨ c = '?' →
      t = '*' ∨ t = '+' ∨ t = '?' →
      Parser.shuntStep (RTok.op t :: rest, out) (RTok.op c) =
        (RTok.op c :: RTok.op t :: rest, out)) ∧
    (∀ (t : Char) (rest out : List RTok), t = '*' ∨ t = '+' ∨ t = '?' →
      Parser.shuntStep (RTok.op t :: RTok.op '(' :: rest, out) (RTok.op '*') =
        (RTok.op '*' :: RTok.op '(' :: rest, out ++ [RTok.op t])) := by
  constructor
  · intro c t rest out hc ht
    rcases hc with hc | hc <;> rcases ht with ht | ht | ht <;> subst hc <;>
      subst ht <;> rfl
  · intro t rest out ht
    rcases ht with ht | ht | ht <;> subst ht <;> rfl

/-- `listMax` of a cons. -/
theorem listMax_cons (m : Nat) (l : List Nat) :
    Lexer.listMax (m :: l) = max m (Lexer.listMax l) := rfl

/-- Every member is bounded by `listMax`. -/
theorem le_listMax_of_mem {x : Nat} {l : List Nat} (h : x ∈ l) :
    x ≤ Lexer.listMax l := by
  induction l with
  | nil => cases h
  | cons m l ih =>
    rcases List.mem_cons.mp h with h | h
    · subst h; exact Nat.le_max_left _ _
    · exact Nat.le_trans (ih h) (Nat.le_max_right _ _)

/-- `listMax` of a nonempty list is attained. -/
theorem listMax_mem {l : List Nat} (h : l ≠ []) : Lexer.listMax l ∈ l := by
  induction l with
  | nil => exact absurd rfl h
  | cons m l ih =>
    by_cases hl : l = []
    · subst hl; simp [Lexer.listMax]
    · rw [listMax_cons]
      rcases Nat.le_total m (Lexer.listMax l) with hle | hle
      · rw [Nat.max_eq_right hle]; exact List.mem_cons_of_mem _ (ih hl)
      · rw [Nat.max_eq_left hle]; exact List.mem_cons_self _ _

/-- One entry of `getLongestMatch`'s traversal: folding one candidate list
with the `>=`-overwrite rule raises the running best to the list maximum
and claims the token exactly when that maximum reaches the running best. -/
theorem innerFold (tok : Str) (l : List Nat) :
    ∀ (t : Option Str) (i : Nat),
      l.foldl (fun a m => if a.2 ≤ m then (some tok, m) else a) (t, i) =
        (if l ≠ [] ∧ i ≤ Lexer.listMax l then some tok else t,
          max i (Lexer.listMax l)) := by
  induction l with
  | nil => intro t i; simp [Lexer.listMax]
  | cons m l ih =>
    intro t i
    simp only [List.foldl_cons]
    by_cases him : i ≤ m
    · rw [if_pos him, ih (some tok) m, listMax_cons]
      have h1 : i ≤ max m (Lexer.listMax l) :=
        Nat.le_trans him (Nat.le_max_left _ _)
      rw [Prod.mk.injEq]
      constructor
      · rw [ite_self,
          if_pos (show m :: l ≠ [] ∧ i ≤ max m (Lexer.listMax l) from
            ⟨by simp, h1⟩)]
      · omega
    · rw [if_neg him, ih t i, listMax_cons]
      rw [Prod.mk.injEq]
      constructor
      · by_cases hl : l = []
        · subst hl
          simp only [Lexer.listMax, List.foldr_nil]
          rw [if_neg (by simp), if_neg (by simp; omega)]
        · by_cases hi : i ≤ Lexer.listMax l
          · rw [if_pos ⟨hl, hi⟩,
              if_pos ⟨List.cons_ne_nil _ _, Nat.le_trans hi (Nat.le_max_right _ _)⟩]
          · rw [if_neg (by rintro ⟨-, h⟩; exact hi h),
              if_neg (by rintro ⟨-, h⟩; omega)]
      · omega

/-- `globalMax` of a cons. -/
theorem globalMax_cons (e : Str × List Nat) (rest : List (Str × List Nat)) :
    Lexer.globalMax (e :: rest) =
      max (Lexer.listMax e.2) (Lexer.globalMax rest) := rfl

/-- The reversed traversal of `getLongestMatch` computes the greatest
recorded endpoint together with the first entry (in declaration order)
whose candidate list contains it. -/
theorem outerFold (md : List (Str × List Nat)) :
    md.reverse.foldl
      (fun acc e => e.2.foldl (fun a m => if a.2 ≤ m then (some e.1, m) else a) acc)
      ((none : Option Str), 0) =
    ((md.find? (fun e => decide (Lexer.globalMax md ∈ e.2))).map Prod.fst,
      Lexer.globalMax md) := by
  induction md with
  | nil => simp [Lexer.globalMax]
  | cons e rest ih =>
    rw [List.reverse_cons, List.foldl_append, ih]
    simp only [List.foldl_cons, List.foldl_nil]
    rw [innerFold e.1 e.2]
    by_cases hl : e.2 = []
    · have h0 : Lexer.listMax e.2 = 0 := by rw [hl]; rfl
      have hg : Lexer.globalMax (e :: rest) = Lexer.globalMax rest := by
        rw [globalMax_cons, h0]; omega
      rw [hg]
      have hdec : decide (Lexer.globalMax rest ∈ e.2) = false := by
        simp [hl]
      simp only [List.find?_cons, hdec]
      rw [Prod.mk.injEq]
      constructor
      · rw [if_neg (by rintro ⟨h, -⟩; exact h hl)]
      · rw [h0]; omega
    · by_cases hle : Lexer.globalMax rest ≤ Lexer.listMax e.2
      · have hg : Lexer.globalMax (e :: rest) = Lexer.listMax e.2 := by
          rw [globalMax_cons]; omega
        rw [hg]
        have hdec : decide (Lexer.listMax e.2 ∈ e.2) = true := by
          simp only [decide_eq_true_eq]
          exact listMax_mem hl
        simp only [List.find?_cons, hdec]
        rw [Prod.mk.injEq]
        constructor
        · rw [if_pos ⟨hl, hle⟩]; rfl
        · omega
      · have hg : Lexer.globalMax (e :: rest) = Lexer.globalMax rest := by
          rw [globalMax_cons]; omega
        rw [hg]
        have hdec : decide (Lexer.globalMax rest ∈ e.2) = false := by
          simp only [decide_eq_false_iff_not]
          intro hmem
          exact hle (le_listMax_of_mem hmem)
        simp only [List.find?_cons, hdec]
        rw [Prod.mk.injEq]
        constructor
        · rw [if_neg (by rintro ⟨-, h⟩; exact hle h)]
        · omega

/-- C3: on a nonempty candidate dictionary (entries in configuration order,
as `Lexer.lex` builds them), `Lexer.getLongestMatch` returns the greatest
recorded endpoint index paired with the token of the first entry in
configuration order whose candidates contain that greatest endpoint — the
earliest-declared category wins ties, as the reverse traversal with the
`>=` overwrite rule makes the earliest-processed-last entry prevail. -/
theorem claim3_longest_match_priority (md : List (Str × List Nat)) (h : md ≠ []) :
    Lexer.getLongestMatch md =
      some ((md.find? (fun e => decide (Lexer.globalMax md ∈ e.2))).map Prod.fst,
        Lexer.globalMax md) := by
  unfold Lexer.getLongestMatch
  rw [if_neg h, outerFold]

/-- Witness for C3: categories `A` and `B` both record endpoint 2 (and `B`
also 1); the earlier-declared `A` wins at the greatest endpoint. -/
theorem claim3_witness :
    Lexer.getLongestMatch [("A".toList, [2]), ("B".toList, [2, 1])] =
      some (some ("A".toList), 2) :=
  (claim3_longest_match_priority [("A".toList, [2]), ("B".toList, [2, 1])]
    (by decide)).trans (by decide)

/-- Witness for C6 (amended): `+` over a stacked `*` pushes without
popping, and `*` over a stacked `+` pops it. -/
theorem claim6_witness :
    Parser.shuntStep ([RTok.op '*'], []) (RTok.op '+') =
      ([RTok.op '+', RTok.op '*'], []) ∧
    Parser.shuntStep ([RTok.op '+', RTok.op '('], []) (RTok.op '*') =
      ([RTok.op '*', RTok.op '('], [RTok.op '+']) :=
  ⟨claim6_star_only_pops_ties_amended.1 '+' '*' [] [] (Or.inl rfl) (Or.inl rfl),
   claim6_star_only_pops_ties_amended.2 '+' [] [] (Or.inr (Or.inl rfl))⟩

/-- Fuel-irrelevance of the replacement scan: any fuel at least the string
length gives the same result. -/
theorem strReplaceAux_fuel (pat rep : Str) :
    ∀ (fuel fuel2 : Nat) (s : Str), s.length ≤ fuel → s.length ≤ fuel2 →
      strReplaceAux pat rep fuel s = strReplaceAux pat rep fuel2 s := by
  intro fuel
  induction fuel with
  | zero =>
    intro fuel2 s h1 h2
    have : s = [] := List.length_eq_zero.mp (Nat.le_zero.mp h1)
    subst this
    cases fuel2 <;> rfl
  | succ fuel ih =>
    intro fuel2 s h1 h2
    match s with
    | [] => cases fuel2 <;> rfl
    | c :: rest =>
      match fuel2, h2 with
      | fuel2 + 1, h2 =>
        simp only [strReplaceAux]
        by_cases hcond : pat ≠ [] ∧ pat.isPrefixOf (c :: rest)
        · rw [if_pos hcond, if_pos hcond]
          have hp : 0 < pat.length := List.length_pos.mpr hcond.1
          have hd : ((c :: rest).drop pat.length).length ≤ fuel := by
            simp only [List.length_drop, List.length_cons]
            simp only [List.length_cons] at h1
            omega
          have hd2 : ((c :: rest).drop pat.length).length ≤ fuel2 := by
            simp only [List.length_drop, List.length_cons]
            simp only [List.length_cons] at h2
            omega
          rw [ih fuel2 _ hd hd2]
        · rw [if_neg hcond, if_neg hcond]
          have := ih fuel2 rest (by simp at h1; omega) (by simp at h2; omega)
          rw [this]

/-- The `eps`→`ε` scan treats a literal `eps` anywhere in the input — also
inside quotes, which it does not see — exactly as an `ε` written there:
no occurrence straddles the seam because the pattern's own characters
cannot re-align across it. -/
theorem replace_eps_aux_key :
    ∀ (fuel : Nat) (u v : Str), u.length + 1 ≤ fuel →
      strReplaceAux ("eps".toList) ['ε'] fuel (u ++ "eps".toList ++ v) =
        strReplaceAux ("eps".toList) ['ε'] fuel (u ++ 'ε' :: v) := by
  have heps : ("eps".toList : Str) = ['e', 'p', 's'] := rfl
  intro fuel
  induction fuel with
  | zero => intro u v h; omega
  | succ fuel ih =>
    intro u v h
    match u with
    | [] =>
      simp only [List.nil_append, heps, strReplaceAux]
      rw [if_pos (by constructor <;> simp [List.isPrefixOf]),
        if_neg (by simp [List.isPrefixOf])]
      simp [List.drop]
    | [c] =>
      simp only [List.cons_append, List.nil_append, heps, strReplaceAux]
      rw [if_neg (by simp [List.isPrefixOf]), if_neg (by simp [List.isPrefixOf])]
      have hfuel : 1 ≤ fuel := by simp at h; omega
      have hx := ih [] v (by simpa using hfuel)
      simp only [List.nil_append, heps, List.cons_append] at hx
      simp only [List.append_eq, List.nil_append, List.cons_append]
      rw [hx]
    | [c, d] =>
      simp only [List.cons_append, List.nil_append, heps, strReplaceAux]
      rw [if_neg (by simp [List.isPrefixOf]), if_neg (by simp [List.isPrefixOf])]
      have hfuel : 2 ≤ fuel := by simp at h; omega
      have hx := ih [d] v (by simp; omega)
      simp only [List.cons_append, List.nil_append, heps] at hx
      simp only [List.append_eq, List.nil_append, List.cons_append]
      rw [hx]
    | a :: b :: c :: u3 =>
      simp only [List.cons_append, heps, strReplaceAux]
      by_cases habc : a = 'e' ∧ b = 'p' ∧ c = 's'
      · obtain ⟨ha, hb, hc⟩ := habc
        subst ha; subst hb; subst hc
        rw [if_pos (by constructor <;> simp [List.isPrefixOf]),
          if_pos (by constructor <;> simp [List.isPrefixOf])]
        have hx := ih u3 v (by simp at h ⊢; omega)
        simp only [heps] at hx
        have hdrop1 : (('e' :: 'p' :: 's' :: (u3 ++ ['e','p','s'] ++ v)) :
            Str).drop ("eps".toList).length = u3 ++ ['e','p','s'] ++ v := rfl
        have hdrop2 : (('e' :: 'p' :: 's' :: (u3 ++ 'ε' :: v)) :
            Str).drop ("eps".toList).length = u3 ++ 'ε' :: v := rfl
        simp only [heps] at hdrop1 hdrop2
        simp only [List.append_eq, List.nil_append, List.cons_append]
          at hdrop1 hdrop2 hx ⊢
        rw [hdrop1, hdrop2, hx]
      · have hpre1 : ¬ (['e','p','s'] : Str).isPrefixOf
            (a :: b :: c :: (u3 ++ ['e','p','s'] ++ v)) = true := by
          simp [List.isPrefixOf]
          intro h1 h2 h3
          exact absurd ⟨h1.symm, h2.symm, h3.symm⟩ habc
        have hpre2 : ¬ (['e','p','s'] : Str).isPrefixOf
            (a :: b :: c :: (u3 ++ 'ε' :: v)) = true := by
          simp [List.isPrefixOf]
          intro h1 h2 h3
          exact absurd ⟨h1.symm, h2.symm, h3.symm⟩ habc
        rw [if_neg (by rintro ⟨-, hx⟩; exact hpre1 (by simpa using hx)),
          if_neg (by rintro ⟨-, hx⟩; exact hpre2 (by simpa using hx))]
        have hx := ih (b :: c :: u3) v (by simp at h ⊢; omega)
        simp only [List.cons_append, heps] at hx
        simp only [List.append_eq, List.nil_append, List.cons_append]
        rw [hx]

/-- `replace_eps_aux_key` lifted to `strReplace`. -/
theorem replace_eps_key (u v : Str) :
    strReplace (u ++ "eps".toList ++ v) ("eps".toList) ['ε'] =
      strReplace (u ++ 'ε' :: v) ("eps".toList) ['ε'] := by
  unfold strReplace
  have hb1 : (u ++ 'ε' :: v).length ≤ (u ++ "eps".toList ++ v).length := by
    simp only [List.length_append, List.length_cons]
    have h3 : ("eps".toList : Str).length = 3 := rfl
    omega
  rw [strReplaceAux_fuel ("eps".toList) ['ε'] (u ++ 'ε' :: v).length
    (u ++ "eps".toList ++ v).length (u ++ 'ε' :: v) (Nat.le_refl _) hb1]
  refine replace_eps_aux_key _ u v ?_
  simp only [List.length_append]
  have h3 : ("eps".toList : Str).length = 3 := rfl
  omega

/-- C8: `Parser.preprocess` performs the `eps`→`ε` replacement before any
tokenization or quote handling (Parser.py line 83), so a literal `eps`
anywhere in the regex — inside quoted literals or longer words included —
is treated exactly as if `ε` had been written there; quoting does not
protect those characters.  In particular the quoted input `'eps'`
preprocesses to the single literal `ε`. -/
theorem claim8_eps_replaced_even_in_quotes :
    (∀ u v : Str,
      Parser.preprocess (u ++ "eps".toList ++ v) =
        Parser.preprocess (u ++ 'ε' :: v)) ∧
    Parser.preprocess (quoteChar :: "eps".toList ++ [quoteChar]) =
      [RTok.ch ['ε']] := by
  constructor
  · intro u v
    unfold Parser.preprocess
    rw [replace_eps_key]
  · rfl

/-- C5 (amended): whenever no configured category records any candidate at
the current cursor (`collectMatches` returns an empty dictionary), the lex
loop fails with the furthest index any DFA reached, rendered as follows:
for inputs without a newline the raw 0-based furthest index (not a 1-based
column) with line 0; for inputs containing a newline the offset from the
last newline before the index (1-based within the line) and the 0-based
count of newlines at indices up to and including the furthest index; and
`EOF` replaces the position exactly when the furthest index equals the
input length. -/
theorem claim5_error_rendering_amended
    (dfas : List (Str × DFA)) (word : Str) (start : Nat)
    (acc : List (Option Str × Str)) (fuel failed : Nat)
    (h1 : start < word.length)
    (h2 : Lexer.collectMatches dfas word start = ([], failed)) :
    Lexer.lexLoop dfas word (fuel + 1) start acc =
      Except.error
        (if word.count '\n' = 0 then
          if failed = word.length then
            "No viable alternative at character EOF, line 0".toList
          else
            "No viable alternative at character ".toList ++ natRepr failed ++
              ", line 0".toList
        else
          if failed = word.length then
            "No viable alternative at character EOF, line ".toList ++
              natRepr ((word.take (failed + 1)).count '\n')
          else
            "No viable alternative at character ".toList ++
              natRepr
                (match Lexer.rfindNl (word.take failed) with
                  | none => failed + 1
                  | some p => failed - p) ++
              ", line ".toList ++ natRepr ((word.take (failed + 1)).count '\n')) := by
  simp only [Lexer.lexLoop]
  rw [if_pos h1, h2]
  rfl

/-- Witness for C5 (amended): the DFA compiled from `a`, run on `"b"`,
reports the raw 0-based index 0. -/
theorem claim5_witness :
    Lexer.lexLoop
      [("A".toList,
        (⟨0, [1], [0, 1, 2], [(0, ['a'], 1), (1, ['a'], 2), (2, ['a'], 2)], 2⟩ : DFA))]
      ("b".toList) 1 0 [] =
      Except.error ("No viable alternative at character 0, line 0".toList) := by
  have h := claim5_error_rendering_amended
    [("A".toList,
      (⟨0, [1], [0, 1, 2], [(0, ['a'], 1), (1, ['a'], 2), (2, ['a'], 2)], 2⟩ : DFA))]
    ("b".toList) 0 [] 0 0 (by decide) (by decide)
  exact h.trans rfl

/-- C5 counterexample: lexing `"b"` with the single category `A → a` fails
at furthest index 0 and the source reports `character 0` (the 0-based
index), whereas the claimed 1-based rendering (`renderErrorClaim`, built
from the spec's words) would report `character 1`. -/
theorem claim5_counterexample :
    (Lexer.lexerInit [("A".toList, "a".toList)]).map
        (fun dfas => Lexer.lex dfas "b".toList) =
      some (Except.error ("No viable alternative at character 0, line 0".toList)) ∧
    Lexer.renderErrorClaim ("b".toList) 0 =
      "No viable alternative at character 1, line 0".toList ∧
    ("No viable alternative at character 0, line 0".toList : Str) ≠
      "No viable alternative at character 1, line 0".toList :=
  ⟨rfl, rfl, by decide⟩



theorem mem_insNat {a x : Nat} : ∀ {l : List Nat}, a ∈ insNat x l ↔ a = x ∨ a ∈ l := by
  intro l
  induction l with
  | nil => simp [insNat]
  | cons y ys ih =>
    simp only [insNat]
    split
    · simp [List.mem_cons]
    · split
      · rename_i hxy
        subst hxy
        simp only [List.mem_cons]
        tauto
      · simp only [List.mem_cons, ih]
        tauto

theorem sorted_insNat {x : Nat} : ∀ {l : List Nat},
    l.Sorted (· < ·) → (insNat x l).Sorted (· < ·) := by
  intro l
  induction l with
  | nil => intro _; simp [insNat]
  | cons y ys ih =>
    intro hs
    rw [List.sorted_cons] at hs
    simp only [insNat]
    split
    · rename_i hxy
      rw [List.sorted_cons]
      refine ⟨?_, by rw [List.sorted_cons]; exact hs⟩
      intro b hb
      rcases List.mem_cons.mp hb with h | h
      · subst h; exact hxy
      · exact Nat.lt_trans hxy (hs.1 b h)
    · split
      · rw [List.sorted_cons]; exact hs
      · rename_i h1 h2
        rw [List.sorted_cons]
        constructor
        · intro b hb
          rcases mem_insNat.mp hb with h | h
          · subst h; omega
          · exact hs.1 b h
        · exact ih hs.2

theorem mem_sortDedupNat {a : Nat} : ∀ {l : List Nat},
    a ∈ sortDedupNat l ↔ a ∈ l := by
  intro l
  induction l with
  | nil => simp [sortDedupNat]
  | cons x xs ih =>
    simp only [sortDedupNat, List.foldr_cons]
    rw [mem_insNat]
    simp only [List.mem_cons]
    rw [show xs.foldr insNat [] = sortDedupNat xs from rfl, ih]

theorem sorted_sortDedupNat : ∀ (l : List Nat), (sortDedupNat l).Sorted (· < ·) := by
  intro l
  induction l with
  | nil => simp [sortDedupNat]
  | cons x xs ih =>
    simp only [sortDedupNat, List.foldr_cons]
    exact sorted_insNat ih

theorem length_insNat (x : Nat) : ∀ (l : List Nat), (insNat x l).length ≤ l.length + 1 := by
  intro l
  induction l with
  | nil => simp [insNat]
  | cons y ys ih =>
    simp only [insNat]
    split
    · simp
    · split
      · simp
      · simp only [List.length_cons]
        omega

theorem length_sortDedupNat : ∀ (l : List Nat), (sortDedupNat l).length ≤ l.length := by
  intro l
  induction l with
  | nil => simp [sortDedupNat]
  | cons x xs ih =>
    simp only [sortDedupNat, List.foldr_cons, List.length_cons]
    calc (insNat x (xs.foldr insNat [])).length ≤ (xs.foldr insNat []).length + 1 :=
          length_insNat x _
    _ ≤ xs.length + 1 := by
          exact Nat.add_le_add_right ih 1

theorem mem_next_states {nfa : NFA} (hWF : NFA.WF nfa) {s x : Nat} {ch : Str}
    (h : x ∈ nfa.next s ch) : x ∈ nfa.states := by
  unfold NFA.next at h
  rcases List.mem_map.mp h with ⟨t, ht, rfl⟩
  exact (hWF.2 t (List.mem_filter.mp ht).1).2

theorem epsClosureGo_subset {nfa : NFA} (hWF : NFA.WF nfa) :
    ∀ (fuel : Nat) (s : Nat) (visited : List Nat), s ∈ nfa.states →
      (∀ x ∈ visited, x ∈ nfa.states) →
      ∀ x ∈ NFA.epsClosureGo nfa fuel s visited, x ∈ nfa.states := by
  intro fuel
  induction fuel with
  | zero =>
    intro s visited _ hv x hx
    exact hv x hx
  | succ fuel ih =>
    intro s visited hs hv
    simp only [NFA.epsClosureGo]
    have hbase : ∀ x ∈ visited ++ [s], x ∈ nfa.states := by
      intro x hx
      rcases List.mem_append.mp hx with h | h
      · exact hv x h
      · rw [List.mem_singleton] at h; subst h; exact hs
    have hnext : ∀ t ∈ nfa.next s epsTok, t ∈ nfa.states :=
      fun t ht => mem_next_states hWF ht
    have Q : ∀ (l : List Nat) (acc : List Nat),
        (∀ x ∈ acc, x ∈ nfa.states) → (∀ t ∈ l, t ∈ nfa.states) →
        ∀ x ∈ l.foldl
          (fun acc t => if t ∈ acc then acc else NFA.epsClosureGo nfa fuel t acc)
          acc, x ∈ nfa.states := by
      intro l
      induction l with
      | nil => intro acc hacc _ x hx; exact hacc x (by simpa using hx)
      | cons t ts ihl =>
        intro acc hacc hl x hx
        simp only [List.foldl_cons] at hx
        refine ihl _ ?_ (fun u hu => hl u (List.mem_cons_of_mem _ hu)) x hx
        intro y hy
        by_cases htmem : t ∈ acc
        · rw [if_pos htmem] at hy; exact hacc y hy
        · rw [if_neg htmem] at hy
          exact ih t acc (hl t (List.mem_cons_self _ _)) hacc y hy
    exact fun x hx => Q _ _ hbase hnext x hx

theorem closureOf_subset {nfa : NFA} (hWF : NFA.WF nfa) {s : Nat}
    (hs : s ∈ nfa.states) : ∀ x ∈ nfa.closureOf s, x ∈ nfa.states :=
  epsClosureGo_subset hWF _ s [] hs (by intro x hx; cases hx)

theorem groupNext_subset {nfa : NFA} (hWF : NFA.WF nfa) {g : List Nat} {ch : Str} :
    ∀ x ∈ DFA.groupNext nfa g ch, x ∈ nfa.states := by
  intro x hx
  unfold DFA.groupNext at hx
  rw [mem_sortDedupNat] at hx
  rcases List.mem_flatMap.mp hx with ⟨s, hsg, hx2⟩
  rcases List.mem_flatMap.mp hx2 with ⟨t, htn, hx3⟩
  exact closureOf_subset hWF (mem_next_states hWF htn) x hx3

theorem groupNext_sorted (nfa : NFA) (g : List Nat) (ch : Str) :
    (DFA.groupNext nfa g ch).Sorted (· < ·) :=
  sorted_sortDedupNat _

theorem startGroup_sorted (nfa : NFA) : (DFA.startGroup nfa).Sorted (· < ·) :=
  sorted_sortDedupNat _

theorem startGroup_subset {nfa : NFA} (hWF : NFA.WF nfa) :
    ∀ x ∈ DFA.startGroup nfa, x ∈ nfa.states := by
  intro x hx
  unfold DFA.startGroup at hx
  rw [mem_sortDedupNat] at hx
  exact closureOf_subset hWF hWF.1 x hx



theorem sorted_sublist : ∀ (S g : List Nat), g.Sorted (· < ·) → S.Sorted (· < ·) →
    (∀ x ∈ g, x ∈ S) → g.Sublist S := by
  intro S
  induction S with
  | nil =>
    intro g _ _ hsub
    match g with
    | [] => exact List.Sublist.refl []
    | a :: g2 => exact absurd (hsub a (List.mem_cons_self _ _)) (by simp)
  | cons b S2 ih =>
    intro g hg hS hsub
    match g with
    | [] => exact List.nil_sublist _
    | a :: g2 =>
      rw [List.sorted_cons] at hg hS
      rcases List.mem_cons.mp (hsub a (List.mem_cons_self _ _)) with hab | haS
    
      · subst hab
        refine List.Sublist.cons₂ a (ih g2 hg.2 hS.2 ?_)
        intro x hx
        have hx2 := hsub x (List.mem_cons_of_mem _ hx)
        rcases List.mem_cons.mp hx2 with h | h
        · exact absurd (h ▸ hg.1 x hx) (by omega)
        · exact h
      · refine List.Sublist.cons b (ih (a :: g2) (by rw [List.sorted_cons]; exact hg) hS.2 ?_)
        intro x hx
        have hx2 := hsub x hx
        rcases List.mem_cons.mp hx2 with h | h
        · subst h
          have hba := hS.1 a haS
          rcases List.mem_cons.mp hx with h2 | h2
          · omega
          · have := hg.1 x h2; omega
        · exact h

theorem groups_length_le (L : List (List Nat)) (S : List Nat) (hN : L.Nodup)
    (hmem : ∀ g ∈ L, g.Sublist S) : L.length ≤ 2 ^ S.length := by
  calc L.length = L.toFinset.card := (List.toFinset_card_of_nodup hN).symm
    _ ≤ S.sublists.toFinset.card := by
        refine Finset.card_le_card ?_
        intro g hgx
        rw [List.mem_toFinset] at hgx ⊢
        rw [List.mem_sublists]
        exact hmem g hgx
    _ ≤ S.sublists.length := List.toFinset_card_le _
    _ = 2 ^ S.length := List.length_sublists S



theorem subsetFold (nfa : NFA) (hWF : NFA.WF nfa) (g : List Nat) :
    ∀ (chs : List Str) (states newly : List (List Nat))
      (tr : List (List Nat × Str × List Nat)),
      states.Nodup →
      (∀ h ∈ states, h.Sorted (· < ·) ∧ ∀ x ∈ h, x ∈ nfa.states) →
      (∀ h ∈ newly, h ∈ states) →
      ∃ added : List (List Nat),
        (chs.foldl (DFA.subsetStep nfa g) (states, newly, tr)).1 =
            states ++ added ∧
        (chs.foldl (DFA.subsetStep nfa g) (states, newly, tr)).2.1 =
            newly ++ added ∧
        (chs.foldl (DFA.subsetStep nfa g) (states, newly, tr)).1.Nodup ∧
        (∀ h ∈ (chs.foldl (DFA.subsetStep nfa g) (states, newly, tr)).1,
            h.Sorted (· < ·) ∧ ∀ x ∈ h, x ∈ nfa.states) ∧
        (∀ h ∈ (chs.foldl (DFA.subsetStep nfa g) (states, newly, tr)).2.1,
            h ∈ (chs.foldl (DFA.subsetStep nfa g) (states, newly, tr)).1) ∧
        (∀ e ∈ tr, e ∈ (chs.foldl (DFA.subsetStep nfa g) (states, newly, tr)).2.2) ∧
        (∀ ch ∈ chs, ∃ hh,
            (g, ch, hh) ∈ (chs.foldl (DFA.subsetStep nfa g) (states, newly, tr)).2.2) := by
  intro chs
  induction chs with
  | nil =>
    intro states newly tr hN hB hsub
    refine ⟨[], by simp, by simp, hN, hB, hsub, fun e he => he, by simp⟩
  | cons ch chs ih =>
    intro states newly tr hN hB hsub
    simp only [List.foldl_cons]
    by_cases hmem : DFA.groupNext nfa g ch ∈ states
    · have hstep : DFA.subsetStep nfa g (states, newly, tr) ch =
          (states, newly, tr ++ [(g, ch, DFA.groupNext nfa g ch)]) := by
        simp [DFA.subsetStep, hmem]
      rw [hstep]
      obtain ⟨added, h1, h2, h3, h4, h5, h6, h7⟩ := ih states newly _ hN hB hsub
      refine ⟨added, h1, h2, h3, h4, h5, ?_, ?_⟩
      · intro e he
        exact h6 e (List.mem_append_left _ he)
      · intro c hc
        rcases List.mem_cons.mp hc with hc | hc
        · subst hc
          exact ⟨DFA.groupNext nfa g c,
            h6 _ (List.mem_append_right _ (List.mem_singleton_self _))⟩
        · exact h7 c hc
    · have hstep : DFA.subsetStep nfa g (states, newly, tr) ch =
          (states ++ [DFA.groupNext nfa g ch], newly ++ [DFA.groupNext nfa g ch],
            tr ++ [(g, ch, DFA.groupNext nfa g ch)]) := by
        simp [DFA.subsetStep, hmem]
      rw [hstep]
      have hN2 : (states ++ [DFA.groupNext nfa g ch]).Nodup := by
        rw [List.nodup_append]
        exact ⟨hN, List.nodup_singleton _, by
          intro a ha hb
          rw [List.mem_singleton] at hb
          subst hb
          exact hmem ha⟩
      have hB2 : ∀ h ∈ states ++ [DFA.groupNext nfa g ch],
          h.Sorted (· < ·) ∧ ∀ x ∈ h, x ∈ nfa.states := by
        intro h hh
        rcases List.mem_append.mp hh with hh | hh
        · exact hB h hh
        · rw [List.mem_singleton] at hh
          subst hh
          exact ⟨groupNext_sorted nfa g ch, fun x hx => groupNext_subset hWF x hx⟩
      have hsub2 : ∀ h ∈ newly ++ [DFA.groupNext nfa g ch],
          h ∈ states ++ [DFA.groupNext nfa g ch] := by
        intro h hh
        rcases List.mem_append.mp hh with hh | hh
        · exact List.mem_append_left _ (hsub h hh)
        · exact List.mem_append_right _ hh
      obtain ⟨added, h1, h2, h3, h4, h5, h6, h7⟩ := ih _ _ _ hN2 hB2 hsub2
      refine ⟨DFA.groupNext nfa g ch :: added, ?_, ?_, h3, h4, h5, ?_, ?_⟩
      · rw [h1, List.append_assoc]
        rfl
      · rw [h2, List.append_assoc]
        rfl
      · intro e he
        exact h6 e (List.mem_append_left _ he)
      · intro c hc
        rcases List.mem_cons.mp hc with hc | hc
        · subst hc
          exact ⟨DFA.groupNext nfa g c,
            h6 _ (List.mem_append_right _ (List.mem_singleton_self _))⟩
        · exact h7 c hc



/-- Distinct sorted groups over the NFA's states number at most
`2 ^ |sorted-deduplicated states|`. -/
theorem states_bound (nfa : NFA) (states : List (List Nat)) (hN : states.Nodup)
    (hB : ∀ g ∈ states, g.Sorted (· < ·) ∧ ∀ x ∈ g, x ∈ nfa.states) :
    states.length ≤ 2 ^ (sortDedupNat nfa.states).length := by
  refine groups_length_le states (sortDedupNat nfa.states) hN ?_
  intro g hg
  refine sorted_sublist _ _ (hB g hg).1 (sorted_sortDedupNat _) ?_
  intro x hx
  rw [mem_sortDedupNat]
  exact (hB g hg).2 x hx

theorem subsetGo_total (nfa : NFA) (alphabet : List Str) (hWF : NFA.WF nfa) :
    ∀ (fuel : Nat) (pending states : List (List Nat))
      (tr : List (List Nat × Str × List Nat)),
      states.Nodup →
      (∀ g ∈ states, g.Sorted (· < ·) ∧ ∀ x ∈ g, x ∈ nfa.states) →
      (∀ g ∈ pending, g ∈ states) →
      (∀ g ∈ states, g ∈ pending ∨ ∀ ch ∈ alphabet, ∃ h, (g, ch, h) ∈ tr) →
      pending.length + 2 ^ (sortDedupNat nfa.states).length + 1 ≤
        fuel + states.length →
      ∀ g ∈ (DFA.subsetGo nfa alphabet fuel pending states tr).1,
        ∀ ch ∈ alphabet, ∃ h,
          (g, ch, h) ∈ (DFA.subsetGo nfa alphabet fuel pending states tr).2 := by
  intro fuel
  induction fuel with
  | zero =>
    intro pending states tr hN hB hpend hproc hfuel
    have := states_bound nfa states hN hB
    omega
  | succ fuel ih =>
    intro pending states tr hN hB hpend hproc hfuel
    match pending with
    | [] =>
      intro g hg ch hch
      rcases hproc g hg with h | h
      · cases h
      · exact h ch hch
    | g :: pending =>
      have hgo : DFA.subsetGo nfa alphabet (fuel + 1) (g :: pending) states tr =
          DFA.subsetGo nfa alphabet fuel
            (pending ++ (alphabet.foldl (DFA.subsetStep nfa g) (states, [], tr)).2.1)
            (alphabet.foldl (DFA.subsetStep nfa g) (states, [], tr)).1
            (alphabet.foldl (DFA.subsetStep nfa g) (states, [], tr)).2.2 := rfl
      rw [hgo]
      obtain ⟨added, e1, e2, e3, e4, e5, e6, e7⟩ :=
        subsetFold nfa hWF g alphabet states [] tr hN hB (by intro h hh; cases hh)
      rw [List.nil_append] at e2
      refine ih _ _ _ e3 e4 ?_ ?_ ?_
      · intro h hh
        rcases List.mem_append.mp hh with hh | hh
        · rw [e1]
          exact List.mem_append_left _ (hpend h (List.mem_cons_of_mem _ hh))
        · exact e5 h hh
      · intro h hh
        rw [e1] at hh
        rcases List.mem_append.mp hh with hh | hh
        · rcases hproc h hh with hp | hp
          · rcases List.mem_cons.mp hp with hp | hp
            · subst hp
              right
              exact e7
            · left
              exact List.mem_append_left _ hp
          · right
            intro ch hch
            obtain ⟨t, ht⟩ := hp ch hch
            exact ⟨t, e6 _ ht⟩
        · left
          rw [← e2] at hh
          exact List.mem_append_right _ hh
      · have hlen1 : (alphabet.foldl (DFA.subsetStep nfa g) (states, [], tr)).1.length =
            states.length + added.length := by rw [e1, List.length_append]
        have hlen2 : (alphabet.foldl (DFA.subsetStep nfa g) (states, [], tr)).2.1.length =
            added.length := by rw [e2]
        rw [List.length_append, hlen1, hlen2]
        simp only [List.length_cons] at hfuel
        omega



/-- Every group the completed subset construction produced has a recorded
transition for every alphabet symbol. -/
theorem groupTrans_total (nfa : NFA) (hWF : NFA.WF nfa) :
    ∀ g ∈ DFA.groupStates nfa, ∀ ch ∈ DFA.getAlphabet nfa,
      ∃ h, (g, ch, h) ∈ DFA.groupTrans nfa := by
  intro g hg ch hch
  have hfuel : (1 : Nat) + 2 ^ (sortDedupNat nfa.states).length + 1 ≤
      (2 ^ nfa.states.length + 1) + 1 := by
    have h1 : (sortDedupNat nfa.states).length ≤ nfa.states.length :=
      length_sortDedupNat _
    have h2 : 2 ^ (sortDedupNat nfa.states).length ≤ 2 ^ nfa.states.length :=
      Nat.pow_le_pow_right (by omega) h1
    omega
  have key := subsetGo_total nfa (DFA.getAlphabet nfa) hWF
    (2 ^ nfa.states.length + 1) [DFA.startGroup nfa] [DFA.startGroup nfa] []
    (List.nodup_singleton _)
    (by
      intro h hh
      rw [List.mem_singleton] at hh
      subst hh
      exact ⟨startGroup_sorted nfa, startGroup_subset hWF⟩)
    (fun h hh => hh)
    (by intro h hh; left; exact hh)
    (by simpa using hfuel)
  exact key g hg ch hch

theorem fromNFA_states (nfa : NFA) :
    (DFA.fromNFA nfa).states = (DFA.groupStates nfa).map (DFA.groupIdx nfa) := by
  unfold DFA.fromNFA
  dsimp only
  split
  · rfl
  · rfl

theorem fromNFA_transitions (nfa : NFA) :
    (DFA.fromNFA nfa).transitions =
      (DFA.groupTrans nfa).map
        (fun t => (DFA.groupIdx nfa t.1, t.2.1, DFA.groupIdx nfa t.2.2)) := by
  unfold DFA.fromNFA
  dsimp only
  split
  · rfl
  · rfl

theorem fromNFA_qfs (nfa : NFA) :
    (DFA.fromNFA nfa).qfs = (DFA.groupQfs nfa).map (DFA.groupIdx nfa) := by
  unfold DFA.fromNFA
  dsimp only
  split
  · rfl
  · rfl

/-- C2 (amended): for every well-formed NFA, the DFA built by
`DFA.fromNFA` defines a transition for every state in its state list and
every symbol of its alphabet — the subset construction records a
transition for each processed group and symbol, and the worklist always
drains within its fuel because distinct groups are sorted subsets of the
NFA's state set. -/
theorem claim2_totality_on_state_list (nfa : NFA) (hWF : NFA.WF nfa) :
    ∀ s ∈ (DFA.fromNFA nfa).states, ∀ ch ∈ DFA.getAlphabet nfa,
      (DFA.fromNFA nfa).next s ch ≠ none := by
  intro s hs ch hch
  rw [fromNFA_states] at hs
  rcases List.mem_map.mp hs with ⟨g, hg, rfl⟩
  obtain ⟨h, hmem⟩ := groupTrans_total nfa hWF g hg ch hch
  unfold DFA.next
  intro hcontra
  rw [Option.map_eq_none'] at hcontra
  rw [List.find?_eq_none] at hcontra
  refine hcontra (DFA.groupIdx nfa g, ch, DFA.groupIdx nfa h) ?_ (by simp)
  rw [fromNFA_transitions]
  exact List.mem_map.mpr ⟨(g, ch, h), hmem, rfl⟩

/-- Witness for C2 (amended) at the one-transition atom NFA. -/
theorem claim2_witness :
    (DFA.fromNFA ⟨0, 1, [0, 1], [(0, ['a'], 1)]⟩).next 0 ('a' :: []) ≠ none :=
  claim2_totality_on_state_list ⟨0, 1, [0, 1], [(0, ['a'], 1)]⟩
    (by constructor
        · decide
        · intro t ht
          fin_cases ht
          exact ⟨by decide, by decide⟩)
    0 (by decide) ('a' :: []) (by decide)

/-- C2 counterexample: for the prenex `STAR a` (whose DFA has no
non-accepting state, hence no detected sink), the sink field holds the
fresh id the mapper gave the `None` placeholder — an id that is not in the
state list and has no transitions at all, so the pair (sink, `a`) is left
without a transition, contrary to the claim; the synthesized-sink branch
at DFA.py lines 150-158 is dead because the sink is no longer `None`. -/
theorem claim2_counterexample :
    (DFA.fromPrenex ("STAR a".toList)).map
        (fun d => (d.states.contains d.sink, d.next d.sink ("a".toList))) =
      some (false, none) := rfl

end LexerProj

namespace LexerProj

theorem natReprAux_fuel :
    ∀ (fuel fuel2 n : Nat), n < fuel → n < fuel2 →
      natReprAux fuel n = natReprAux fuel2 n := by
  intro fuel
  induction fuel with
  | zero => intro fuel2 n h; omega
  | succ fuel ih =>
    intro fuel2 n h1 h2
    match fuel2, h2 with
    | fuel2 + 1, h2 =>
      simp only [natReprAux]
      by_cases h10 : n < 10
      · rw [if_pos h10, if_pos h10]
      · rw [if_neg h10, if_neg h10]
        have : n / 10 < n := Nat.div_lt_self (by omega) (by omega)
        rw [ih fuel2 (n / 10) (by omega) (by omega)]

theorem natRepr_lt10 (n : Nat) (h : n < 10) : natRepr n = [Nat.digitChar n] := by
  unfold natRepr
  simp only [natReprAux]
  rw [if_pos h]

theorem natRepr_ge10 (n : Nat) (h : 10 ≤ n) :
    natRepr n = natRepr (n / 10) ++ [Nat.digitChar (n % 10)] := by
  have h1 : natRepr n = natReprAux (n + 1) n := rfl
  have h2 : natReprAux (n + 1) n =
      natReprAux n (n / 10) ++ [Nat.digitChar (n % 10)] := by
    simp only [natReprAux]
    rw [if_neg (by omega)]
  have hdiv : n / 10 < n := Nat.div_lt_self (by omega) (by omega)
  have h3 : natReprAux n (n / 10) = natReprAux (n / 10 + 1) (n / 10) :=
    natReprAux_fuel n (n / 10 + 1) (n / 10) (by omega) (by omega)
  rw [h1, h2, h3]
  rfl

theorem natRepr_ne_nil (n : Nat) : natRepr n ≠ [] := by
  by_cases h : n < 10
  · rw [natRepr_lt10 n h]; simp
  · rw [natRepr_ge10 n (by omega)]; simp

theorem digitChar_ne_underscore : ∀ d : Nat, d < 10 → Nat.digitChar d ≠ '_' := by
  decide

theorem underscore_not_mem_natRepr (n : Nat) : '_' ∉ natRepr n := by
  induction n using Nat.strong_induction_on with
  | _ n ih =>
    by_cases h : n < 10
    · rw [natRepr_lt10 n h]
      intro hc
      rw [List.mem_singleton] at hc
      exact digitChar_ne_underscore n h hc.symm
    · rw [natRepr_ge10 n (by omega)]
      intro hc
      rcases List.mem_append.mp hc with hc | hc
      · exact ih (n / 10) (Nat.div_lt_self (by omega) (by omega)) hc
      · rw [List.mem_singleton] at hc
        exact digitChar_ne_underscore (n % 10) (Nat.mod_lt _ (by omega)) hc.symm

theorem natRepr_length_mono : ∀ (n m : Nat), m ≤ n →
    (natRepr m).length ≤ (natRepr n).length := by
  intro n
  induction n using Nat.strong_induction_on with
  | _ n ih =>
    intro m hmn
    by_cases hn : n < 10
    · have hm : m < 10 := by omega
      rw [natRepr_lt10 n hn, natRepr_lt10 m hm]
      simp
    · by_cases hm : m < 10
      · rw [natRepr_lt10 m hm, natRepr_ge10 n (by omega)]
        simp only [List.length_append, List.length_singleton, List.length_cons]
        have := natRepr_ne_nil (n / 10)
        have : 0 < (natRepr (n / 10)).length := List.length_pos.mpr this
        omega
      · rw [natRepr_ge10 n (by omega), natRepr_ge10 m (show (10:Nat) ≤ m by omega)]
        simp only [List.length_append, List.length_singleton]
        have hdiv : n / 10 < n := Nat.div_lt_self (by omega) (by omega)
        have := ih (n / 10) hdiv (m / 10) (Nat.div_le_div_right hmn)
        omega

theorem digitChar_inj : ∀ a : Nat, a < 10 → ∀ b : Nat, b < 10 →
    Nat.digitChar a = Nat.digitChar b → a = b := by
  decide

theorem natRepr_inj : ∀ (n m : Nat), natRepr m = natRepr n → m = n := by
  intro n
  induction n using Nat.strong_induction_on with
  | _ n ih =>
    intro m heq
    by_cases hn : n < 10
    · by_cases hm : m < 10
      · rw [natRepr_lt10 n hn, natRepr_lt10 m hm] at heq
        exact digitChar_inj m hm n hn (List.singleton_injective heq)
      · rw [natRepr_lt10 n hn, natRepr_ge10 m (show (10:Nat) ≤ m by omega)] at heq
        have := congrArg List.length heq
        simp only [List.length_append, List.length_singleton] at this
        have hpos := List.length_pos.mpr (natRepr_ne_nil (m / 10))
        omega
    · by_cases hm : m < 10
      · rw [natRepr_lt10 m hm, natRepr_ge10 n (show (10:Nat) ≤ n by omega)] at heq
        have := congrArg List.length heq
        simp only [List.length_append, List.length_singleton] at this
        have hpos := List.length_pos.mpr (natRepr_ne_nil (n / 10))
        omega
      · rw [natRepr_ge10 n (show (10:Nat) ≤ n by omega),
          natRepr_ge10 m (show (10:Nat) ≤ m by omega)] at heq
        have h2 := List.append_inj' heq (by simp)
        have hdiv : n / 10 < n := Nat.div_lt_self (by omega) (by omega)
        have hq := ih (n / 10) hdiv (m / 10) h2.1
        have hr := digitChar_inj (m % 10) (Nat.mod_lt _ (by omega))
          (n % 10) (Nat.mod_lt _ (by omega)) (List.singleton_injective h2.2)
        omega

end LexerProj

namespace LexerProj

theorem isPrefixOf_ex : ∀ (p h : Str), p.isPrefixOf h = true ↔ ∃ t, h = p ++ t := by
  intro p
  induction p with
  | nil => intro h; simp [List.isPrefixOf]
  | cons a p ih =>
    intro h
    match h with
    | [] => simp [List.isPrefixOf]
    | b :: h2 =>
      simp only [List.isPrefixOf, Bool.and_eq_true, beq_iff_eq, ih]
      constructor
      · rintro ⟨rfl, t, rfl⟩
        exact ⟨t, rfl⟩
      · rintro ⟨t, ht⟩
        rw [List.cons_append] at ht
        injection ht with h1 h2x
        exact ⟨h1.symm, t, h2x⟩

theorem containsSub_iff : ∀ (hay pat : Str),
    containsSub hay pat = true ↔ ∃ l r, hay = l ++ pat ++ r := by
  intro hay
  induction hay with
  | nil =>
    intro pat
    simp only [containsSub, Bool.or_false]
    rw [isPrefixOf_ex]
    constructor
    · rintro ⟨t, ht⟩
      exact ⟨[], t, by simpa using ht⟩
    · rintro ⟨l, r, h⟩
      match l, pat, h with
      | [], [], _ => exact ⟨[], by simp⟩
      | [], p :: ps, h => exact absurd h (by simp)
      | a :: ls, pat, h => exact absurd h (by simp)
  | cons c t ih =>
    intro pat
    rw [containsSub, Bool.or_eq_true, isPrefixOf_ex]
    constructor
    · rintro (⟨tt, htt⟩ | hsub)
      · exact ⟨[], tt, by simpa using htt⟩
      · obtain ⟨l, r, hlr⟩ := (ih pat).mp hsub
        exact ⟨c :: l, r, by simp [hlr]⟩
    · rintro ⟨l, r, hlr⟩
      match l, hlr with
      | [], hlr => exact Or.inl ⟨r, by simpa using hlr⟩
      | a :: ls, hlr =>
        right
        rw [(ih pat)]
        rw [List.cons_append, List.cons_append] at hlr
        injection hlr with h1 h2
        exact ⟨ls, r, by simpa using h2⟩

theorem mem_setToStr_substring : ∀ (g : List Nat) (q : Nat), q ∈ g →
    ∃ l r, setToStr g = l ++ natRepr q ++ r := by
  intro g
  induction g with
  | nil => intro q hq; cases hq
  | cons x xs ih =>
    intro q hq
    match xs with
    | [] =>
      rw [List.mem_singleton] at hq
      subst hq
      exact ⟨[], [], by simp [setToStr]⟩
    | y :: ys =>
      rcases List.mem_cons.mp hq with hq | hq
      · subst hq
        exact ⟨[], '_' :: setToStr (y :: ys), by simp [setToStr]⟩
      · obtain ⟨l, r, hlr⟩ := ih q hq
        refine ⟨natRepr x ++ '_' :: l, r, ?_⟩
        rw [setToStr, hlr]
        simp

end LexerProj

namespace LexerProj

theorem prefix_within (u v p t : Str) (h : u ++ v = p ++ t)
    (hl : p.length ≤ u.length) : ∃ t2, u = p ++ t2 := by
  have h2 := congrArg (List.take p.length) h
  rw [List.take_append_eq_append_take, List.take_append_eq_append_take] at h2
  rw [Nat.sub_eq_zero_of_le hl, List.take_zero, List.append_nil] at h2
  rw [Nat.sub_self, List.take_zero, List.append_nil, List.take_of_length_le
    (Nat.le_refl _)] at h2
  have h3 := List.take_append_drop p.length u
  rw [h2] at h3
  exact ⟨u.drop p.length, h3.symm⟩

theorem mem_of_long_front (u : Str) (c : Char) (ys p t : Str)
    (h : u ++ c :: ys = p ++ t) (hl : u.length < p.length) : c ∈ p := by
  have h2 := congrArg (List.take p.length) h
  rw [List.take_append_eq_append_take, List.take_append_eq_append_take] at h2
  rw [Nat.sub_self, List.take_zero, List.append_nil, List.take_of_length_le
    (Nat.le_refl _)] at h2
  rw [List.take_of_length_le (Nat.le_of_lt hl)] at h2
  obtain ⟨k, hk⟩ : ∃ k, p.length - u.length = k + 1 :=
    ⟨p.length - u.length - 1, by omega⟩
  rw [hk] at h2
  rw [List.take_succ_cons] at h2
  rw [← h2]
  exact List.mem_append_right _ (List.mem_cons_self _ _)

theorem containsSub_of_isPrefix {h pat : Str} (hp : ∃ t, h = pat ++ t) :
    containsSub h pat = true := by
  have hpre : pat.isPrefixOf h = true := (isPrefixOf_ex pat h).mpr hp
  match h with
  | [] => rw [containsSub]; simp [hpre]
  | c :: t2 => rw [containsSub]; simp [hpre]

theorem containsSub_split : ∀ (xs : Str) (c : Char) (ys pat : Str),
    pat ≠ [] → c ∉ pat → containsSub (xs ++ c :: ys) pat = true →
    containsSub xs pat = true ∨ containsSub ys pat = true := by
  intro xs
  induction xs with
  | nil =>
    intro c ys pat hne hcp h
    rw [List.nil_append, containsSub, Bool.or_eq_true, isPrefixOf_ex] at h
    rcases h with ⟨t, ht⟩ | h
    · match pat, hne with
      | p0 :: ps, _ =>
        rw [List.cons_append] at ht
        injection ht with h1 h2
        exact absurd (h1 ▸ List.mem_cons_self p0 ps) hcp
    · exact Or.inr h
  | cons x xs ih =>
    intro c ys pat hne hcp h
    rw [List.cons_append, containsSub, Bool.or_eq_true, isPrefixOf_ex] at h
    rcases h with ⟨t, ht⟩ | h
    · have ht2 : (x :: xs) ++ c :: ys = pat ++ t := by simpa using ht
      by_cases hle : pat.length ≤ (x :: xs).length
      · left
        exact containsSub_of_isPrefix (prefix_within _ _ _ _ ht2 hle)
      · exact absurd (mem_of_long_front _ _ _ _ _ ht2 (by omega)) hcp
    · rcases ih c ys pat hne hcp h with h2 | h2
      · left
        rw [containsSub, Bool.or_eq_true]
        exact Or.inr h2
      · exact Or.inr h2

theorem substring_setToStr_to_token : ∀ (g : List Nat) (pat : Str),
    pat ≠ [] → '_' ∉ pat → containsSub (setToStr g) pat = true →
    ∃ s, s ∈ g ∧ containsSub (natRepr s) pat = true := by
  intro g
  induction g with
  | nil =>
    intro pat hne hu h
    rw [setToStr] at h
    match pat, hne with
    | p0 :: ps, _ => simp [containsSub, List.isPrefixOf] at h
  | cons x xs ih =>
    intro pat hne hu h
    match xs with
    | [] =>
      rw [setToStr] at h
      exact ⟨x, List.mem_singleton_self x, h⟩
    | y :: ys =>
      rw [setToStr] at h
      rcases containsSub_split (natRepr x) '_' (setToStr (y :: ys)) pat hne hu h
        with h2 | h2
      · exact ⟨x, List.mem_cons_self _ _, h2⟩
      · obtain ⟨s, hs, hsub⟩ := ih pat hne hu h2
        exact ⟨s, List.mem_cons_of_mem _ hs, hsub⟩

theorem substring_natRepr_eq (s q : Nat) (hle : s ≤ q)
    (h : containsSub (natRepr s) (natRepr q) = true) : s = q := by
  obtain ⟨l, r, hlr⟩ := (containsSub_iff _ _).mp h
  have hlen := congrArg List.length hlr
  simp only [List.length_append] at hlen
  have hmono := natRepr_length_mono q s hle
  have hl0 : l.length = 0 ∧ r.length = 0 := by omega
  have hl : l = [] := List.length_eq_zero.mp hl0.1
  have hr : r = [] := List.length_eq_zero.mp hl0.2
  subst hl; subst hr
  rw [List.nil_append, List.append_nil] at hlr
  exact natRepr_inj q s hlr

end LexerProj

namespace LexerProj

theorem subsetGo_bounded (nfa : NFA) (alphabet : List Str) (hWF : NFA.WF nfa) :
    ∀ (fuel : Nat) (pending states : List (List Nat))
      (tr : List (List Nat × Str × List Nat)),
      states.Nodup →
      (∀ g ∈ states, g.Sorted (· < ·) ∧ ∀ x ∈ g, x ∈ nfa.states) →
      ∀ g ∈ (DFA.subsetGo nfa alphabet fuel pending states tr).1,
        g.Sorted (· < ·) ∧ ∀ x ∈ g, x ∈ nfa.states := by
  intro fuel
  induction fuel with
  | zero =>
    intro pending states tr _ hB
    exact hB
  | succ fuel ih =>
    intro pending states tr hN hB
    match pending with
    | [] => exact hB
    | g :: pending =>
      have hgo : DFA.subsetGo nfa alphabet (fuel + 1) (g :: pending) states tr =
          DFA.subsetGo nfa alphabet fuel
            (pending ++ (alphabet.foldl (DFA.subsetStep nfa g) (states, [], tr)).2.1)
            (alphabet.foldl (DFA.subsetStep nfa g) (states, [], tr)).1
            (alphabet.foldl (DFA.subsetStep nfa g) (states, [], tr)).2.2 := rfl
      rw [hgo]
      obtain ⟨added, e1, e2, e3, e4, e5, e6, e7⟩ :=
        subsetFold nfa hWF g alphabet states [] tr hN hB (by intro h hh; cases hh)
      exact ih _ _ _ e3 e4

/-- Every group the subset construction produced consists of NFA states. -/
theorem groupStates_bounded (nfa : NFA) (hWF : NFA.WF nfa) :
    ∀ g ∈ DFA.groupStates nfa, ∀ x ∈ g, x ∈ nfa.states := by
  intro g hg
  refine (subsetGo_bounded nfa (DFA.getAlphabet nfa) hWF
    (2 ^ nfa.states.length + 1) [DFA.startGroup nfa] [DFA.startGroup nfa] []
    (List.nodup_singleton _) ?_ g hg).2
  intro h hh
  rw [List.mem_singleton] at hh
  subst hh
  exact ⟨startGroup_sorted nfa, startGroup_subset hWF⟩

/-- The Thompson construction invariant: a successful `NFA.fromAST t i`
returns the next free counter `k`, an accept state `qf = k - 1`, states all
within `[i, k)` containing both endpoints, and transitions whose endpoints
are states. -/
theorem fromAST_bounded : ∀ (t : AST.PNode) (i : Nat) (nfa : NFA) (k : Nat),
    NFA.fromAST t i = some (nfa, k) →
    i < k ∧ nfa.qf + 1 = k ∧
    (∀ s ∈ nfa.states, i ≤ s ∧ s < k) ∧
    nfa.q0 ∈ nfa.states ∧ nfa.qf ∈ nfa.states ∧
    (∀ e ∈ nfa.transitions, e.1 ∈ nfa.states ∧ e.2.2 ∈ nfa.states) := by
  intro t i
  induction t, i using NFA.fromAST.induct
  case case1 tok children idx hAtom =>
    intro nfa k h
    rw [NFA.fromAST.eq_def] at h
    dsimp only at h
    rw [if_pos hAtom, NFA.atomNFA] at h
    injection h with h
    rw [Prod.mk.injEq] at h
    obtain ⟨h1, h2⟩ := h
    subst h2
    subst h1
    refine ⟨by omega, rfl, ?_, by simp, by simp, ?_⟩
    · intro s hs
      rcases List.mem_cons.mp hs with rfl | hs
      · omega
      · rw [List.mem_singleton] at hs
        subst hs
        omega
    · intro e he
      rw [List.mem_singleton] at he
      subst he
      exact ⟨by simp, by simp⟩
  case case2 idx c hAtom ih =>
    intro nfa k h
    replace h : (NFA.fromAST c idx).map (fun p => NFA.starNFA p.1 p.2) =
        some (nfa, k) := h
    rw [Option.map_eq_some'] at h
    obtain ⟨p, hp, hpk⟩ := h
    obtain ⟨i1, i2, i3, i4, i5, i6⟩ := ih p.1 p.2 (by rw [Prod.mk.eta]; exact hp)
    rw [NFA.starNFA, Prod.mk.injEq] at hpk
    obtain ⟨h1, h2⟩ := hpk
    subst h2
    subst h1
    refine ⟨by omega, rfl, ?_, List.mem_cons_self _ _,
      List.mem_cons_of_mem _ (List.mem_cons_self _ _), ?_⟩
    · intro s hs
      rcases List.mem_cons.mp hs with rfl | hs
      · omega
      rcases List.mem_cons.mp hs with rfl | hs
      · omega
      have := i3 s hs
      omega
    · intro e he
      rcases List.mem_cons.mp he with rfl | he
      · exact ⟨List.mem_cons_self _ _,
          List.mem_cons_of_mem _ (List.mem_cons_of_mem _ i4)⟩
      rcases List.mem_cons.mp he with rfl | he
      · exact ⟨List.mem_cons_of_mem _ (List.mem_cons_of_mem _ i5),
          List.mem_cons_of_mem _ (List.mem_cons_self _ _)⟩
      rcases List.mem_cons.mp he with rfl | he
      · exact ⟨List.mem_cons_self _ _,
          List.mem_cons_of_mem _ (List.mem_cons_self _ _)⟩
      rcases List.mem_cons.mp he with rfl | he
      · exact ⟨List.mem_cons_of_mem _ (List.mem_cons_of_mem _ i5),
          List.mem_cons_of_mem _ (List.mem_cons_of_mem _ i4)⟩
      obtain ⟨e1, e2⟩ := i6 e he
      exact ⟨List.mem_cons_of_mem _ (List.mem_cons_of_mem _ e1),
        List.mem_cons_of_mem _ (List.mem_cons_of_mem _ e2)⟩
  case case3 children idx hne hAtom =>
    intro nfa k h
    rcases children with _ | ⟨c, _ | ⟨c2, rest⟩⟩
    · exact Option.noConfusion
        (show (none : Option (NFA × Nat)) = some (nfa, k) from h)
    · exact (hne c rfl).elim
    · rw [NFA.fromAST.eq_def] at h
      dsimp only at h
      rw [if_neg hAtom, if_pos rfl] at h
      exact Option.noConfusion h
  case case4 idx c hAtom hSt ih =>
    intro nfa k h
    replace h : (NFA.fromAST c idx).map (fun p => NFA.plusNFA p.1 p.2) =
        some (nfa, k) := h
    rw [Option.map_eq_some'] at h
    obtain ⟨p, hp, hpk⟩ := h
    obtain ⟨i1, i2, i3, i4, i5, i6⟩ := ih p.1 p.2 (by rw [Prod.mk.eta]; exact hp)
    rw [NFA.plusNFA, Prod.mk.injEq] at hpk
    obtain ⟨h1, h2⟩ := hpk
    subst h2
    subst h1
    refine ⟨by omega, rfl, ?_, List.mem_cons_self _ _,
      List.mem_cons_of_mem _ (List.mem_cons_self _ _), ?_⟩
    · intro s hs
      rcases List.mem_cons.mp hs with rfl | hs
      · omega
      rcases List.mem_cons.mp hs with rfl | hs
      · omega
      have := i3 s hs
      omega
    · intro e he
      rcases List.mem_cons.mp he with rfl | he
      · exact ⟨List.mem_cons_self _ _,
          List.mem_cons_of_mem _ (List.mem_cons_of_mem _ i4)⟩
      rcases List.mem_cons.mp he with rfl | he
      · exact ⟨List.mem_cons_of_mem _ (List.mem_cons_of_mem _ i5),
          List.mem_cons_of_mem _ (List.mem_cons_self _ _)⟩
      rcases List.mem_cons.mp he with rfl | he
      · exact ⟨List.mem_cons_of_mem _ (List.mem_cons_of_mem _ i5),
          List.mem_cons_of_mem _ (List.mem_cons_of_mem _ i4)⟩
      obtain ⟨e1, e2⟩ := i6 e he
      exact ⟨List.mem_cons_of_mem _ (List.mem_cons_of_mem _ e1),
        List.mem_cons_of_mem _ (List.mem_cons_of_mem _ e2)⟩
  case case5 children idx hne hAtom hSt =>
    intro nfa k h
    rcases children with _ | ⟨c, _ | ⟨c2, rest⟩⟩
    · exact Option.noConfusion
        (show (none : Option (NFA × Nat)) = some (nfa, k) from h)
    · exact (hne c rfl).elim
    · rw [NFA.fromAST.eq_def] at h
      dsimp only at h
      rw [if_neg hAtom, if_neg hSt, if_pos rfl] at h
      exact Option.noConfusion h
  case case6 idx c hAtom hSt hPl ih =>
    intro nfa k h
    replace h : (NFA.fromAST c idx).map (fun p => (NFA.maybeNFA p.1, p.2)) =
        some (nfa, k) := h
    rw [Option.map_eq_some'] at h
    obtain ⟨p, hp, hpk⟩ := h
    obtain ⟨i1, i2, i3, i4, i5, i6⟩ := ih p.1 p.2 (by rw [Prod.mk.eta]; exact hp)
    rw [NFA.maybeNFA, Prod.mk.injEq] at hpk
    obtain ⟨h1, h2⟩ := hpk
    subst h2
    subst h1
    refine ⟨i1, i2, i3, i4, i5, ?_⟩
    intro e he
    rcases List.mem_cons.mp he with rfl | he
    · exact ⟨i4, i5⟩
    · exact i6 e he
  case case7 children idx hne hAtom hSt hPl =>
    intro nfa k h
    rcases children with _ | ⟨c, _ | ⟨c2, rest⟩⟩
    · exact Option.noConfusion
        (show (none : Option (NFA × Nat)) = some (nfa, k) from h)
    · exact (hne c rfl).elim
    · rw [NFA.fromAST.eq_def] at h
      dsimp only at h
      rw [if_neg hAtom, if_neg hSt, if_neg hPl, if_pos rfl] at h
      exact Option.noConfusion h
  case case8 idx c1 c2 hAtom hSt hPl hMa ihA ihB =>
    intro nfa k h
    replace h : (NFA.fromAST c1 idx).bind (fun p1 =>
        (NFA.fromAST c2 p1.2).map (fun p2 => (NFA.concatNFA p1.1 p2.1, p2.2))) =
        some (nfa, k) := h
    rw [Option.bind_eq_some] at h
    obtain ⟨p1, hp1, h⟩ := h
    rw [Option.map_eq_some'] at h
    obtain ⟨p2, hp2, hpk⟩ := h
    obtain ⟨a1, a2, a3, a4, a5, a6⟩ := ihA p1.1 p1.2 (by rw [Prod.mk.eta]; exact hp1)
    obtain ⟨b1, b2, b3, b4, b5, b6⟩ :=
      ihB p1 p2.1 p2.2 (by rw [Prod.mk.eta]; exact hp2)
    rw [NFA.concatNFA, Prod.mk.injEq] at hpk
    obtain ⟨h1, h2⟩ := hpk
    subst h2
    subst h1
    refine ⟨by omega, b2, ?_, List.mem_append_left _ a4,
      List.mem_append_right _ b5, ?_⟩
    · intro s hs
      rcases List.mem_append.mp hs with hs | hs
      · have := a3 s hs
        omega
      · have := b3 s hs
        omega
    · intro e he
      rcases List.mem_cons.mp he with rfl | he
      · exact ⟨List.mem_append_left _ a5, List.mem_append_right _ b4⟩
      rcases List.mem_append.mp he with he | he
      · obtain ⟨e1, e2⟩ := a6 e he
        exact ⟨List.mem_append_left _ e1, List.mem_append_left _ e2⟩
      · obtain ⟨e1, e2⟩ := b6 e he
        exact ⟨List.mem_append_right _ e1, List.mem_append_right _ e2⟩
  case case9 children idx hne hAtom hSt hPl hMa =>
    intro nfa k h
    rcases children with _ | ⟨c1, _ | ⟨c2, _ | ⟨c3, rest⟩⟩⟩
    · exact Option.noConfusion
        (show (none : Option (NFA × Nat)) = some (nfa, k) from h)
    · exact Option.noConfusion
        (show (none : Option (NFA × Nat)) = some (nfa, k) from h)
    · exact (hne c1 c2 rfl).elim
    · exact Option.noConfusion
        (show (none : Option (NFA × Nat)) = some (nfa, k) from h)
  case case10 idx c1 c2 hAtom hSt hPl hMa hCo ihA ihB =>
    intro nfa k h
    replace h : (NFA.fromAST c1 idx).bind (fun p1 =>
        (NFA.fromAST c2 p1.2).map (fun p2 => NFA.unionNFA p1.1 p2.1 p2.2)) =
        some (nfa, k) := h
    rw [Option.bind_eq_some] at h
    obtain ⟨p1, hp1, h⟩ := h
    rw [Option.map_eq_some'] at h
    obtain ⟨p2, hp2, hpk⟩ := h
    obtain ⟨a1, a2, a3, a4, a5, a6⟩ := ihA p1.1 p1.2 (by rw [Prod.mk.eta]; exact hp1)
    obtain ⟨b1, b2, b3, b4, b5, b6⟩ :=
      ihB p1 p2.1 p2.2 (by rw [Prod.mk.eta]; exact hp2)
    rw [NFA.unionNFA, Prod.mk.injEq] at hpk
    obtain ⟨h1, h2⟩ := hpk
    subst h2
    subst h1
    refine ⟨by omega, rfl, ?_, List.mem_cons_self _ _,
      List.mem_cons_of_mem _ (List.mem_cons_self _ _), ?_⟩
    · intro s hs
      rcases List.mem_cons.mp hs with rfl | hs
      · omega
      rcases List.mem_cons.mp hs with rfl | hs
      · omega
      rcases List.mem_append.mp hs with hs | hs
      · have := a3 s hs
        omega
      · have := b3 s hs
        omega
    · intro e he
      rcases List.mem_cons.mp he with rfl | he
      · exact ⟨List.mem_cons_self _ _, List.mem_cons_of_mem _
          (List.mem_cons_of_mem _ (List.mem_append_left _ a4))⟩
      rcases List.mem_cons.mp he with rfl | he
      · exact ⟨List.mem_cons_self _ _, List.mem_cons_of_mem _
          (List.mem_cons_of_mem _ (List.mem_append_right _ b4))⟩
      rcases List.mem_cons.mp he with rfl | he
      · exact ⟨List.mem_cons_of_mem _ (List.mem_cons_of_mem _
          (List.mem_append_left _ a5)),
          List.mem_cons_of_mem _ (List.mem_cons_self _ _)⟩
      rcases List.mem_cons.mp he with rfl | he
      · exact ⟨List.mem_cons_of_mem _ (List.mem_cons_of_mem _
          (List.mem_append_right _ b5)),
          List.mem_cons_of_mem _ (List.mem_cons_self _ _)⟩
      rcases List.mem_append.mp he with he | he
      · obtain ⟨e1, e2⟩ := a6 e he
        exact ⟨List.mem_cons_of_mem _ (List.mem_cons_of_mem _
          (List.mem_append_left _ e1)),
          List.mem_cons_of_mem _ (List.mem_cons_of_mem _
          (List.mem_append_left _ e2))⟩
      · obtain ⟨e1, e2⟩ := b6 e he
        exact ⟨List.mem_cons_of_mem _ (List.mem_cons_of_mem _
          (List.mem_append_right _ e1)),
          List.mem_cons_of_mem _ (List.mem_cons_of_mem _
          (List.mem_append_right _ e2))⟩
  case case11 children idx hne hAtom hSt hPl hMa hCo =>
    intro nfa k h
    rcases children with _ | ⟨c1, _ | ⟨c2, _ | ⟨c3, rest⟩⟩⟩
    · exact Option.noConfusion
        (show (none : Option (NFA × Nat)) = some (nfa, k) from h)
    · exact Option.noConfusion
        (show (none : Option (NFA × Nat)) = some (nfa, k) from h)
    · exact (hne c1 c2 rfl).elim
    · exact Option.noConfusion
        (show (none : Option (NFA × Nat)) = some (nfa, k) from h)
  case case12 tok children idx hAtom hSt hPl hMa hCo hUn =>
    intro nfa k h
    rw [NFA.fromAST.eq_def] at h
    dsimp only at h
    rw [if_neg hAtom, if_neg hSt, if_neg hPl, if_neg hMa,
      if_neg hCo, if_neg hUn] at h
    exact Option.noConfusion h


theorem mem_dedupFoldAux : ∀ (l acc : List (List Nat)) (x : List Nat),
    x ∈ acc ∨ x ∈ l →
    x ∈ l.foldl (fun acc g => if g ∈ acc then acc else acc ++ [g]) acc := by
  intro l
  induction l with
  | nil =>
    intro acc x h
    rcases h with h | h
    · exact h
    · cases h
  | cons a l ih =>
    intro acc x h
    rw [List.foldl_cons]
    apply ih
    by_cases ha : a ∈ acc
    · rw [if_pos ha]
      rcases h with h | h
      · exact Or.inl h
      · rcases List.mem_cons.mp h with rfl | h
        · exact Or.inl ha
        · exact Or.inr h
    · rw [if_neg ha]
      rcases h with h | h
      · exact Or.inl (List.mem_append_left _ h)
      · rcases List.mem_cons.mp h with rfl | h
        · exact Or.inl (List.mem_append_right _ (List.mem_singleton_self _))
        · exact Or.inr h

theorem indexOf_inj_keys : ∀ (l : List (List Nat)) (a b : List Nat),
    a ∈ l → b ∈ l → l.indexOf a = l.indexOf b → a = b := by
  intro l
  induction l with
  | nil =>
    intro a b ha hb h
    cases ha
  | cons x l ih =>
    intro a b ha hb h
    rw [List.indexOf, List.indexOf, List.findIdx_cons, List.findIdx_cons] at h
    by_cases hax : x = a
    · by_cases hbx : x = b
      · rw [← hax, ← hbx]
      · subst hax
        rw [beq_self_eq_true] at h
        rw [beq_false_of_ne hbx] at h
        simp at h
    · by_cases hbx : x = b
      · subst hbx
        rw [beq_self_eq_true] at h
        rw [beq_false_of_ne hax] at h
        simp at h
      · rw [beq_false_of_ne hax, beq_false_of_ne hbx] at h
        simp only [cond_false] at h
        have ha2 : a ∈ l := by
          rcases List.mem_cons.mp ha with rfl | h2
          · exact absurd rfl hax
          · exact h2
        have hb2 : b ∈ l := by
          rcases List.mem_cons.mp hb with rfl | h2
          · exact absurd rfl hbx
          · exact h2
        refine ih a b ha2 hb2 ?_
        rw [List.indexOf, List.indexOf]
        omega

/-- Every group of the subset construction is one of the remap keys. -/
theorem mem_mapKeys_of_mem (nfa : NFA) (g : List Nat)
    (hg : g ∈ DFA.groupStates nfa) : g ∈ DFA.mapKeys nfa := by
  rw [DFA.mapKeys]
  apply mem_dedupFoldAux
  right
  exact List.mem_append_left _ (List.mem_append_right _ hg)

/-- C1: for every NFA produced by the Thompson construction `NFA.fromAST`,
a state of the DFA returned by `DFA.fromNFA` — canonically the subset of
NFA state ids it stands for — is accepting exactly when that subset
contains the NFA's unique accept state `qf`.  (The substring test
`str(nfa.qf) in state` of DFA.py line 127 is exact here because `qf` is the
largest allocated state id, so no other id's decimal form contains it.) -/
theorem claim1_accepting_iff_contains_qf (t : AST.PNode) (i : Nat)
    (nfa : NFA) (k : Nat) (h : NFA.fromAST t i = some (nfa, k)) :
    ∀ g ∈ DFA.groupStates nfa,
      (DFA.groupIdx nfa g ∈ (DFA.fromNFA nfa).qfs ↔ nfa.qf ∈ g) := by
  obtain ⟨h1, h2, h3, h4, h5, h6⟩ := fromAST_bounded t i nfa k h
  have hWF : NFA.WF nfa := ⟨h4, h6⟩
  intro g hg
  have hb : ∀ x ∈ g, x ∈ nfa.states := groupStates_bounded nfa hWF g hg
  have hqfs := fromNFA_qfs nfa
  constructor
  · intro hq
    rw [hqfs, List.mem_map] at hq
    obtain ⟨g2, hg2, hidx⟩ := hq
    have hg2s : g2 ∈ DFA.groupStates nfa := List.mem_of_mem_filter hg2
    rw [DFA.groupIdx, DFA.groupIdx] at hidx
    have hgg : g2 = g :=
      indexOf_inj_keys (DFA.mapKeys nfa) g2 g (mem_mapKeys_of_mem nfa g2 hg2s)
        (mem_mapKeys_of_mem nfa g hg) hidx
    subst hgg
    rw [DFA.groupQfs, List.mem_filter] at hg2
    obtain ⟨s, hs, hss⟩ := substring_setToStr_to_token g2 (natRepr nfa.qf)
      (natRepr_ne_nil _) (underscore_not_mem_natRepr _) hg2.2
    have hle : s ≤ nfa.qf := by
      have := h3 s (hb s hs)
      omega
    have heq : s = nfa.qf := substring_natRepr_eq s nfa.qf hle hss
    exact heq ▸ hs
  · intro hq
    rw [hqfs, List.mem_map]
    refine ⟨g, ?_, rfl⟩
    rw [DFA.groupQfs, List.mem_filter]
    obtain ⟨l, r, hlr⟩ := mem_setToStr_substring g nfa.qf hq
    exact ⟨hg, (containsSub_iff _ _).mpr ⟨l, r, hlr⟩⟩

/-- Witness for C1 at the atom NFA of the single-character regex `a`. -/
theorem claim1_witness :
    (DFA.groupIdx ⟨0, 1, [0, 1], [(0, "a".toList, 1)]⟩ [1] ∈
        (DFA.fromNFA ⟨0, 1, [0, 1], [(0, "a".toList, 1)]⟩).qfs) ↔
      1 ∈ [1] :=
  claim1_accepting_iff_contains_qf (AST.PNode.mk "a".toList []) 0
    ⟨0, 1, [0, 1], [(0, "a".toList, 1)]⟩ 2 rfl [1] (by decide)


theorem containsSub_len_lt (s pat : Str) (h : s.length < pat.length) :
    containsSub s pat = false := by
  cases hcs : containsSub s pat with
  | false => rfl
  | true =>
    obtain ⟨l, r, hlr⟩ := (containsSub_iff _ _).mp hcs
    have hlen := congrArg List.length hlr
    simp only [List.length_append] at hlen
    omega

/-- Under `literalOk`, the parsing pipeline maps the one-character regex to
the one-character prenex string unchanged. -/
theorem toPrenex_single (c : Char) (hc : Parser.literalOk c) :
    Parser.toPrenex [c] = [c] := by
  obtain ⟨h1, h2, h3, h4, h5, h6, h7, h8, h9, h10, h11⟩ := hc
  have hclass : Parser.classify [c] = [RTok.ch [c]] := by
    rw [Parser.classify]
    show Parser.classifyAux 1 [c] = _
    simp only [Parser.classifyAux, h1, h2, h3, h4, h5, h6, h7, h8, h9,
      if_false]
  have hpre : Parser.preprocess [c] = [RTok.ch [c]] := by
    rw [Parser.preprocess,
      strReplace_id _ _ _ (containsSub_len_lt _ _ (by simp)), hclass]
    rfl
  rw [Parser.toPrenex, hpre]
  show Parser.toPrenexHelper [RTok.op '(', RTok.ch [c], RTok.op ')'] = [c]
  show strReplace (strReplace (strReplace (strReplace [c, ' ']
      [' ', '\n', ' '] ['\n']) [' ', '\r', ' '] ['\r']) [' ', '\t', ' ']
      ['\t']).dropLast ['ε'] "eps".toList = [c]
  have e1 : strReplace [c, ' '] [' ', '\n', ' '] ['\n'] = [c, ' '] :=
    strReplace_id _ _ _ (containsSub_len_lt _ _ (by simp))
  rw [e1]
  have e2 : strReplace [c, ' '] [' ', '\r', ' '] ['\r'] = [c, ' '] :=
    strReplace_id _ _ _ (containsSub_len_lt _ _ (by simp))
  rw [e2]
  have e3 : strReplace [c, ' '] [' ', '\t', ' '] ['\t'] = [c, ' '] :=
    strReplace_id _ _ _ (containsSub_len_lt _ _ (by simp))
  rw [e3]
  show strReplace [c] ['ε'] "eps".toList = [c]
  refine strReplace_id _ _ _ ?_
  have hne : ¬ 'ε' = c := fun h => h11 h.symm
  simp [containsSub, List.isPrefixOf, hne]

/-- Under `literalOk`, the prenex string `c` parses to the leaf AST node. -/
theorem parseRoot_single (c : Char) (hc : Parser.literalOk c) :
    AST.parseRoot [c] = some (AST.PNode.mk [c] []) := by
  obtain ⟨h1, h2, h3, h4, h5, h6, h7, h8, h9, h10, h11⟩ := hc
  have hsplit : AST.customSplit [c] = [[c]] := by
    rw [AST.customSplit]
    simp only [AST.customSplitGo, h9, h10, if_false, ite_self]
    simp [AST.unquoteTok, h10]
  have hnc : AST.numChildren [c] = 0 := by
    simp [AST.numChildren]
  have hfp : AST.fromPrenex [[c]] = some (AST.PNode.mk [c] [], []) := by
    rw [AST.fromPrenex]
    show AST.fromPrenexAux 1 [[c]] = _
    rw [AST.fromPrenexAux, hnc]
  rw [AST.parseRoot, hsplit, hfp]
  rfl

/-- Under `literalOk`, the Thompson NFA of the prenex string `c` is the
two-state atom automaton. -/
theorem nfaFromPrenex_single (c : Char) (hc : Parser.literalOk c) :
    NFA.fromPrenex [c] = some ⟨0, 1, [0, 1], [(0, [c], 1)]⟩ := by
  rw [NFA.fromPrenex, parseRoot_single c hc]
  rfl

/-- The subset construction on the two-state atom NFA with a non-epsilon
label: three DFA states (start, accept, dead), the dead state detected as
the sink. -/
theorem fromNFA_atom_subset (L : Str) (hL : L ≠ epsTok) :
    DFA.subsetResult ⟨0, 1, [0, 1], [(0, L, 1)]⟩ =
      ([[0], [1], []], [([0], L, [1]), ([1], L, []), ([], L, [])]) := by
  simp [DFA.subsetResult, DFA.subsetGo, DFA.subsetStep, DFA.groupNext,
    DFA.startGroup, DFA.getAlphabet, NFA.closureOf, NFA.epsClosureGo,
    NFA.next, sortDedupNat, insNat, sortDedupStr, insStr, hL]


theorem fromNFA_atom_qfs (L : Str) (hL : L ≠ epsTok) :
    DFA.groupQfs ⟨0, 1, [0, 1], [(0, L, 1)]⟩ = [[1]] := by
  rw [DFA.groupQfs, DFA.groupStates, fromNFA_atom_subset L hL]
  rfl

theorem fromNFA_atom_mapKeys (L : Str) (hL : L ≠ epsTok) :
    DFA.mapKeys ⟨0, 1, [0, 1], [(0, L, 1)]⟩ = [[0], [1], []] := by
  rw [DFA.mapKeys, fromNFA_atom_qfs L hL, DFA.groupStates, DFA.groupTrans,
    fromNFA_atom_subset L hL]
  have hstart : DFA.startGroup ⟨0, 1, [0, 1], [(0, L, 1)]⟩ = [0] := by
    simp [DFA.startGroup, NFA.closureOf, NFA.epsClosureGo, NFA.next,
      sortDedupNat, insNat, hL]
  rw [hstart]
  rfl


set_option maxHeartbeats 1000000 in
theorem fromNFA_atom (L : Str) (hL : L ≠ epsTok) :
    DFA.fromNFA ⟨0, 1, [0, 1], [(0, L, 1)]⟩ =
      ⟨0, [1], [0, 1, 2], [(0, L, 1), (1, L, 2), (2, L, 2)], 2⟩ := by
  have hstart : DFA.startGroup ⟨0, 1, [0, 1], [(0, L, 1)]⟩ = [0] := by
    simp [DFA.startGroup, NFA.closureOf, NFA.epsClosureGo, NFA.next,
      sortDedupNat, insNat, hL]
  have halpha : DFA.getAlphabet ⟨0, 1, [0, 1], [(0, L, 1)]⟩ = [L] := by
    simp [DFA.getAlphabet, sortDedupStr, insStr, hL]
  have hidx0 : DFA.groupIdx ⟨0, 1, [0, 1], [(0, L, 1)]⟩ [0] = 0 := by
    rw [DFA.groupIdx, fromNFA_atom_mapKeys L hL]
    rfl
  have hidx1 : DFA.groupIdx ⟨0, 1, [0, 1], [(0, L, 1)]⟩ [1] = 1 := by
    rw [DFA.groupIdx, fromNFA_atom_mapKeys L hL]
    rfl
  have hidx2 : DFA.groupIdx ⟨0, 1, [0, 1], [(0, L, 1)]⟩ [] = 2 := by
    rw [DFA.groupIdx, fromNFA_atom_mapKeys L hL]
    rfl
  unfold DFA.fromNFA
  dsimp only
  rw [hstart, halpha, fromNFA_atom_qfs L hL, DFA.groupStates, DFA.groupTrans,
    fromNFA_atom_subset L hL, fromNFA_atom_mapKeys L hL]
  dsimp only
  simp only [List.map_cons, List.map_nil]
  simp only [hidx0, hidx1, hidx2]
  simp [DFA.next, DFA.isFinal, List.find?]


theorem atomDFA_sink (c : Char) : ∀ w : Str,
    DFA.acceptsFrom
      ⟨0, [1], [0, 1, 2], [(0, [c], 1), (1, [c], 2), (2, [c], 2)], 2⟩ 2 w =
      false := by
  intro w
  induction w with
  | nil => rfl
  | cons ch rest ih =>
    rw [DFA.acceptsFrom]
    by_cases hch : c = ch
    · have hnext : DFA.next
          ⟨0, [1], [0, 1, 2], [(0, [c], 1), (1, [c], 2), (2, [c], 2)], 2⟩ 2 [ch] =
          some 2 := by
        simp [DFA.next, List.find?, hch]
      rw [hnext]
      exact ih
    · have hnext : DFA.next
          ⟨0, [1], [0, 1, 2], [(0, [c], 1), (1, [c], 2), (2, [c], 2)], 2⟩ 2 [ch] =
          none := by
        simp [DFA.next, List.find?, hch]
      rw [hnext]

theorem atomDFA_one (c : Char) : ∀ w : Str,
    DFA.acceptsFrom
      ⟨0, [1], [0, 1, 2], [(0, [c], 1), (1, [c], 2), (2, [c], 2)], 2⟩ 1 w =
      decide (w = []) := by
  intro w
  match w with
  | [] => rfl
  | ch :: rest =>
    rw [DFA.acceptsFrom]
    by_cases hch : c = ch
    · have hnext : DFA.next
          ⟨0, [1], [0, 1, 2], [(0, [c], 1), (1, [c], 2), (2, [c], 2)], 2⟩ 1 [ch] =
          some 2 := by
        simp [DFA.next, List.find?, hch]
      rw [hnext]
      exact atomDFA_sink c rest
    · have hnext : DFA.next
          ⟨0, [1], [0, 1, 2], [(0, [c], 1), (1, [c], 2), (2, [c], 2)], 2⟩ 1 [ch] =
          none := by
        simp [DFA.next, List.find?, hch]
      rw [hnext]
      rfl

theorem atomDFA_accepts (c : Char) (w : Str) :
    DFA.accepts
      ⟨0, [1], [0, 1, 2], [(0, [c], 1), (1, [c], 2), (2, [c], 2)], 2⟩ w =
      decide (w = [c]) := by
  rw [DFA.accepts]
  match w with
  | [] => rfl
  | ch :: rest =>
    rw [DFA.acceptsFrom]
    by_cases hch : c = ch
    · subst hch
      have hnext : DFA.next
          ⟨0, [1], [0, 1, 2], [(0, [c], 1), (1, [c], 2), (2, [c], 2)], 2⟩ 0 [c] =
          some 1 := by
        simp [DFA.next, List.find?]
      rw [hnext]
      rw [show decide (c :: rest = [c]) = decide (rest = []) from by simp]
      exact atomDFA_one c rest
    · have hnext : DFA.next
          ⟨0, [1], [0, 1, 2], [(0, [c], 1), (1, [c], 2), (2, [c], 2)], 2⟩ 0 [ch] =
          none := by
        simp [DFA.next, List.find?, hch]
      rw [hnext]
      have hcc : ¬ ch = c := fun h => hch h.symm
      rw [show decide (ch :: rest = [c]) = false from by simp [hcc]]

/-- C4: for every literal character `c` — one the tokenizer treats as a plain
character — the DFA compiled from the one-character regex `c` through the
whole pipeline (regex → prenex → AST → NFA → DFA) accepts the one-character
string `c` and rejects every other string, including the empty string. -/
theorem claim4_single_char_roundtrip (c : Char) (hc : Parser.literalOk c)
    (w : Str) :
    (DFA.fromPrenex (Parser.toPrenex [c])).map (fun d => d.accepts w) =
      some (decide (w = [c])) := by
  have hne : ([c] : Str) ≠ epsTok := by
    intro h
    have hlen := congrArg List.length h
    rw [show List.length epsTok = 3 from rfl] at hlen
    simp at hlen
  rw [toPrenex_single c hc, DFA.fromPrenex, nfaFromPrenex_single c hc,
    Option.map_some', fromNFA_atom [c] hne,
    Option.map_some', atomDFA_accepts c w]

/-- Witness for C4 at the regex `a` and the input `a`. -/
theorem claim4_witness :
    Parser.literalOk 'a' ∧
      (DFA.fromPrenex (Parser.toPrenex ['a'])).map (fun d => d.accepts ['a']) =
        some (decide ((['a'] : Str) = ['a'])) :=
  ⟨by decide, claim4_single_char_roundtrip 'a' (by decide) ['a']⟩

end LexerProj
